import Mathlib

set_option maxRecDepth 10000
set_option maxHeartbeats 1000000

/-!
Verification of the raster halftoning pipeline of the Epson printer SDK
(`utils.ts`): `toMonoImage` (1-bit packing with Bayer / Floyd–Steinberg /
Atkinson / Stucki dithering) and `toGrayImage` (4-bit packing through a
thermal lookup table and a 4×4 ordered matrix).

Modelling conventions:
* JS numbers are modelled as exact rationals (ℚ); Float32 rounding of the
  error buffers is abstracted away.
* The gamma curve `x ↦ Math.pow x (1/g)` is abstracted as a function
  parameter `pw : ℚ → ℚ`; for `g = 1` it is the identity.
* Out-of-range reads of the input channel list default to 0 (the JS code
  would produce `undefined`/NaN there; no theorem below depends on such
  reads except where explicitly discussed).
* The three `Float32Array` row error buffers are modelled as a store with
  three object identities; the JS `errorBuffer` array holds references
  (ids) into that store, so the aliasing created by
  `errorBuffer.shift(); errorBuffer.push(nxt2)` is represented faithfully.
* `Uint8Array` writes take the value mod 256; writes past the end of a
  typed array are dropped (`List.set` out of range is a no-op).
-/

namespace Epson

/-- RGBA image input: flat channel list in RGBA order, row-major, with the
declared width and height. -/
structure ImageData where
  data : List ℚ
  width : Nat
  height : Nat

/-- JS array read `d[p]`, out-of-range reads defaulting to 0. -/
def chan (d : List ℚ) (p : Nat) : ℚ := d.getD p 0

/-- Luminance/alpha compositing of the pixel whose four channels start at `p`
(source line 150/233):
`(((d[p]*0.29891 + d[p+1]*0.58661 + d[p+2]*0.11448) * d[p+3]) / 255 + 255 - d[p+3]) / 255`. -/
def lumAt (d : List ℚ) (p : Nat) : ℚ :=
  (((chan d p * 0.29891 + chan d (p+1) * 0.58661 + chan d (p+2) * 0.11448) * chan d (p+3)) / 255
    + 255 - chan d (p+3)) / 255

/-- The 8×8 ordered-dither threshold matrix of `toMonoImage` (mode 0),
source lines 154–163. -/
def bayer : List (List Nat) :=
  [[2, 130, 34, 162, 10, 138, 42, 170],
   [194, 66, 226, 98, 202, 74, 234, 106],
   [50, 178, 18, 146, 58, 186, 26, 154],
   [242, 114, 210, 82, 250, 122, 218, 90],
   [14, 142, 46, 174, 6, 134, 38, 166],
   [206, 78, 238, 110, 198, 70, 230, 102],
   [62, 190, 30, 158, 54, 182, 22, 150],
   [254, 126, 222, 94, 246, 118, 214, 86]]

/-- `bayer[j & 7][i & 7]`. -/
def bayerAt (j i : Nat) : Nat := (bayer.getD (j % 8) []).getD (i % 8) 0

/-- `l[k] += x` on a Float32Array: out-of-range writes are dropped. -/
def setAdd (l : List ℚ) (k : Nat) (x : ℚ) : List ℚ := l.set k (l.getD k 0 + x)

/-- The all-zero error buffer allocated for width `w` (source line 137). -/
def zbuf (w : Nat) : List ℚ := List.replicate (w + 4) 0

/-- The store holding the three `Float32Array` error-buffer objects,
addressed by object identity 0/1/2. -/
structure BufStore where
  b0 : List ℚ
  b1 : List ℚ
  b2 : List ℚ

/-- Dereference a buffer id. -/
def BufStore.get (st : BufStore) (bid : Nat) : List ℚ :=
  if bid = 0 then st.b0 else if bid = 1 then st.b1 else st.b2

/-- Replace the buffer object named `bid`. -/
def BufStore.put (st : BufStore) (bid : Nat) (l : List ℚ) : BufStore :=
  if bid = 0 then { st with b0 := l }
  else if bid = 1 then { st with b1 := l }
  else { st with b2 := l }

/-- `buf[k] += x` through a buffer reference. -/
def BufStore.bump (st : BufStore) (bid k : Nat) (x : ℚ) : BufStore :=
  st.put bid (setAdd (st.get bid) k x)

/-- Error distribution of `toMonoImage` (source lines 171–184), performed
through the `cur`/`nxt`/`nxt2` references `ids` into the store, in source
order.  `s = 1`: Floyd–Steinberg; `s = 2`: Atkinson; `s = 3`: Stucki. -/
def diffuse (s : Nat) (err : ℚ) (i : Nat) (ids : Nat × Nat × Nat) (st : BufStore) : BufStore :=
  if s = 1 then
    ((((st.bump ids.1 (i+3) (err * 7/16)).bump ids.2.1 (i+1) (err * 3/16)).bump
        ids.2.1 (i+2) (err * 5/16)).bump ids.2.1 (i+3) (err * 1/16))
  else if s = 2 then
    let dist := err / 8
    (((((st.bump ids.1 (i+3) dist).bump ids.1 (i+4) dist).bump ids.2.1 (i+1) dist).bump
        ids.2.1 (i+2) dist).bump ids.2.1 (i+3) dist).bump ids.2.2 (i+2) dist
  else if s = 3 then
    let dist := err / 42
    (((((((((((st.bump ids.1 (i+3) (dist*8)).bump ids.1 (i+4) (dist*4)).bump
        ids.2.1 i (dist*2)).bump ids.2.1 (i+1) (dist*4)).bump ids.2.1 (i+2) (dist*8)).bump
        ids.2.1 (i+3) (dist*4)).bump ids.2.1 (i+4) (dist*2)).bump
        ids.2.2 i (dist*1)).bump ids.2.2 (i+1) (dist*2)).bump ids.2.2 (i+2) (dist*4)).bump
        ids.2.2 (i+3) (dist*2)).bump ids.2.2 (i+4) (dist*1)
  else st

/-- The ePOS wire quirk of source line 188: a packed byte equal to 16 is
emitted as 32. -/
def flushByte (n : Nat) : Nat := if n = 16 then 32 else n

/-- State of the `toMonoImage` loops: buffer store, the `errorBuffer`
reference triple, the running byte `n`, the input pointer `p`, and the
bytes emitted so far. -/
structure MonoSt where
  store : BufStore
  ids : Nat × Nat × Nat
  n : Nat
  p : Nat
  out : List Nat

/-- The brightness `v` used by the decision of column `i` (source lines
150–151 and 165): the sampled value, plus — in diffusion modes — the
accumulated error read through the `cur` reference. -/
def monoV (s : Nat) (pw : ℚ → ℚ) (d : List ℚ) (st : MonoSt) (i : Nat) : ℚ :=
  if s = 0 then pw (lumAt d st.p) * 255
  else pw (lumAt d st.p) * 255 + (st.store.get st.ids.1).getD (i + 2) 0

/-- The threshold `t` (source lines 147 and 153–163): the Bayer matrix
entry in mode 0, 128 otherwise. -/
def monoT (s j i : Nat) : ℚ := if s = 0 then (bayerAt j i : ℚ) else 128

/-- The running byte after column `i`'s decision (source lines 168–169):
the bit `128 >> (i & 7)` is set iff `v < t`. -/
def monoN1 (s : Nat) (pw : ℚ → ℚ) (d : List ℚ) (j : Nat) (st : MonoSt) (i : Nat) : Nat :=
  if monoV s pw d st i < monoT s j i then st.n ||| (128 >>> (i % 8)) else st.n

/-- The quantization error of column `i` (source line 172):
`err = v - (isDark ? 0 : 255)`. -/
def monoErr (s : Nat) (pw : ℚ → ℚ) (d : List ℚ) (j : Nat) (st : MonoSt) (i : Nat) : ℚ :=
  monoV s pw d st i - (if monoV s pw d st i < monoT s j i then 0 else 255)

/-- The buffer store after column `i`'s error distribution (source lines
171–184). -/
def monoStore1 (s : Nat) (pw : ℚ → ℚ) (d : List ℚ) (j : Nat) (st : MonoSt) (i : Nat) : BufStore :=
  if 0 < s then diffuse s (monoErr s pw d j st i) i st.ids st.store else st.store

/-- One column step of `toMonoImage` (source lines 145–191) for column `i`
of row `j`: on a flush column (`i & 7 = 7` or last column) the running
byte is emitted (with the 16→32 quirk) and reset; otherwise it carries. -/
def monoStep (w s : Nat) (pw : ℚ → ℚ) (d : List ℚ) (j : Nat) (st : MonoSt) (i : Nat) : MonoSt :=
  if i % 8 = 7 ∨ i = w - 1 then
    { store := monoStore1 s pw d j st i, ids := st.ids, n := 0, p := st.p + 4,
      out := st.out ++ [flushByte (monoN1 s pw d j st i) % 256] }
  else
    { store := monoStore1 s pw d j st i, ids := st.ids, n := monoN1 s pw d j st i,
      p := st.p + 4, out := st.out }

/-- One row of `toMonoImage`: `nxt2.fill(0)` (line 143), the column loop,
then the `errorBuffer.shift(); errorBuffer.push(nxt2)` rotation of lines
192–193 — which duplicates the `nxt2` reference: `(a, b, c) ↦ (b, c, c)`. -/
def monoRow (w s : Nat) (pw : ℚ → ℚ) (d : List ℚ) (j : Nat) (st : MonoSt) : MonoSt :=
  let st0 : MonoSt :=
    { st with store :=
        st.store.put st.ids.2.2 (List.replicate (st.store.get st.ids.2.2).length 0) }
  let st1 := (List.range w).foldl (monoStep w s pw d j) st0
  { st1 with ids := (st1.ids.2.1, st1.ids.2.2, st1.ids.2.2) }

/-- `toMonoImage` (source lines 130–196).  Mode `s`: 0 Bayer,
1 Floyd–Steinberg, 2 Atkinson, 3 Stucki; `pw` abstracts the gamma curve
`x ↦ Math.pow x (1/g)`. -/
def toMonoImage (pw : ℚ → ℚ) (img : ImageData) (s : Nat) : List Nat :=
  let w := img.width
  let zero : List ℚ := List.replicate (w + 4) 0
  let init : MonoSt :=
    { store := ⟨zero, zero, zero⟩, ids := (0, 1, 2), n := 0, p := 0, out := [] }
  ((List.range img.height).foldl (fun st j => monoRow w s pw img.data j st) init).out

/-- The embedded 256-entry thermal response table of `toGrayImage`
(source lines 206–220). -/
def thermal : List Nat :=
  [0, 7, 13, 19, 23, 27, 31, 35, 40, 44, 49, 52, 54, 55, 57, 59, 61, 62, 64, 66, 67, 69, 70, 70,
   71, 72, 73, 74, 75, 76, 77, 78, 79, 80, 81, 82, 83, 83, 84, 85, 86, 86, 87, 88, 88, 89, 90, 90,
   91, 91, 92, 93, 93, 94, 94, 95, 96, 96, 97, 98, 98, 99, 99, 100, 101, 101, 102, 102, 103, 103,
   104, 104, 105, 105, 106, 106, 107, 107, 108, 108, 109, 109, 110, 110, 111, 111, 112, 112, 112,
   113, 113, 114, 114, 115, 115, 116, 116, 117, 117, 118, 118, 119, 119, 120, 120, 120, 121, 121,
   122, 122, 123, 123, 123, 124, 124, 125, 125, 125, 126, 126, 127, 127, 127, 128, 128, 129, 129,
   130, 130, 130, 131, 131, 132, 132, 132, 133, 133, 134, 134, 135, 135, 135, 136, 136, 137, 137,
   137, 138, 138, 139, 139, 139, 140, 140, 141, 141, 141, 142, 142, 143, 143, 143, 144, 144, 145,
   145, 146, 146, 146, 147, 147, 148, 148, 148, 149, 149, 150, 150, 150, 151, 151, 152, 152, 152,
   153, 153, 154, 154, 155, 155, 155, 156, 156, 157, 157, 158, 158, 159, 159, 160, 160, 161, 161,
   161, 162, 162, 163, 163, 164, 164, 165, 165, 166, 166, 166, 167, 167, 168, 168, 169, 169, 170,
   170, 171, 171, 172, 173, 173, 174, 175, 175, 176, 177, 178, 178, 179, 180, 180, 181, 182, 182,
   183, 184, 184, 185, 186, 186, 187, 189, 191, 193, 195, 198, 200, 202, 255]

/-- The 4×4 ordered matrix of `toGrayImage` (source line 222). -/
def m4 : List (List Nat) := [[0, 9, 2, 11], [13, 4, 15, 6], [3, 12, 1, 10], [16, 7, 14, 5]]

/-- `m4[j & 3][i & 3]`. -/
def m4At (j i : Nat) : Nat := (m4.getD (j % 4) []).getD (i % 4) 0

/-- JS `x | 0`: truncation toward zero. -/
def jsTrunc (x : ℚ) : Int := if 0 ≤ x then ⌊x⌋ else -⌊-x⌋

/-- Thermal-table index of a sampled brightness value
(`(Math.pow(lum, 1/g) * 255) | 0`, clamped to ℕ). -/
def idxOf (x : ℚ) : Nat := (jsTrunc x).toNat

/-- The 4-bit level of `toGrayImage` (source lines 234–237): `v1 = (v/17)|0`
for `v = thermal[idx]`, incremented when the matrix entry `m` is below
`v % 17`. -/
def grayLevel (idx m : Nat) : Nat :=
  thermal.getD idx 0 / 17 + (if m < thermal.getD idx 0 % 17 then 1 else 0)

/-- State of the `toGrayImage` loops. -/
structure GraySt where
  n : Nat
  p : Nat
  out : List Nat

/-- The running byte of `toGrayImage` after column `i`'s nibble (source
line 239): the 4-bit level lands in the high nibble for even columns and
the low nibble for odd ones. -/
def grayN1 (pw : ℚ → ℚ) (d : List ℚ) (j : Nat) (st : GraySt) (i : Nat) : Nat :=
  st.n ||| (grayLevel (idxOf (pw (lumAt d st.p) * 255)) (m4At j i) <<< ((1 - i % 2) <<< 2))

/-- One column step of `toGrayImage` (source lines 231–245) for column `i`
of row `j`. -/
def grayStep (w : Nat) (pw : ℚ → ℚ) (d : List ℚ) (j : Nat) (st : GraySt) (i : Nat) : GraySt :=
  if i % 2 = 1 ∨ i = w - 1 then
    { n := 0, p := st.p + 4, out := st.out ++ [grayN1 pw d j st i % 256] }
  else
    { n := grayN1 pw d j st i, p := st.p + 4, out := st.out }

/-- `toGrayImage` (source lines 202–249); `pw` abstracts the gamma curve as
in `toMonoImage`. -/
def toGrayImage (pw : ℚ → ℚ) (img : ImageData) : List Nat :=
  ((List.range img.height).foldl
    (fun st j => (List.range img.width).foldl (grayStep img.width pw img.data j) st)
    { n := 0, p := 0, out := [] }).out

/-- State of the spec-modelled monochrome converter: three always-distinct
row buffers. -/
structure MonoSt3 where
  cur : List ℚ
  nxt : List ℚ
  nxt2 : List ℚ
  n : Nat
  p : Nat
  out : List Nat

/-- Modelled from the spec: the error distribution of §4.2 over three
distinct buffers (same kernels and offsets as `diffuse`). -/
def diffuse3 (s : Nat) (err : ℚ) (i : Nat) (cur nxt nxt2 : List ℚ) :
    List ℚ × List ℚ × List ℚ :=
  if s = 1 then
    (setAdd cur (i+3) (err * 7/16),
     setAdd (setAdd (setAdd nxt (i+1) (err * 3/16)) (i+2) (err * 5/16)) (i+3) (err * 1/16),
     nxt2)
  else if s = 2 then
    let dist := err / 8
    (setAdd (setAdd cur (i+3) dist) (i+4) dist,
     setAdd (setAdd (setAdd nxt (i+1) dist) (i+2) dist) (i+3) dist,
     setAdd nxt2 (i+2) dist)
  else if s = 3 then
    let dist := err / 42
    (setAdd (setAdd cur (i+3) (dist*8)) (i+4) (dist*4),
     setAdd (setAdd (setAdd (setAdd (setAdd nxt i (dist*2)) (i+1) (dist*4)) (i+2) (dist*8))
       (i+3) (dist*4)) (i+4) (dist*2),
     setAdd (setAdd (setAdd (setAdd (setAdd nxt2 i (dist*1)) (i+1) (dist*2)) (i+2) (dist*4))
       (i+3) (dist*2)) (i+4) (dist*1))
  else (cur, nxt, nxt2)

/-- Modelled from the spec: one column step of the monochrome halftoner of
§4.2 (same decision logic as `monoStep`, buffers distinct). -/
def monoStep3 (w s : Nat) (pw : ℚ → ℚ) (d : List ℚ) (j : Nat) (st : MonoSt3) (i : Nat) :
    MonoSt3 :=
  let b := i % 8
  let v0 := pw (lumAt d st.p) * 255
  let t : ℚ := if s = 0 then (bayerAt j i : ℚ) else 128
  let v := if s = 0 then v0 else v0 + st.cur.getD (i+2) 0
  let isDark := v < t
  let n1 := if isDark then st.n ||| (128 >>> b) else st.n
  let bufs := if 0 < s then diffuse3 s (v - (if isDark then 0 else 255)) i st.cur st.nxt st.nxt2
    else (st.cur, st.nxt, st.nxt2)
  let flush := b = 7 ∨ i = w - 1
  { cur := bufs.1, nxt := bufs.2.1, nxt2 := bufs.2.2,
    n := if flush then 0 else n1,
    p := st.p + 4,
    out := if flush then st.out ++ [flushByte n1 % 256] else st.out }

/-- Modelled from the spec (§3, ErrorAccumulator lifecycle — the rotation
missing from the source's `shift`/`push` idiom): after each row the current
buffer is discarded, "next" becomes "current", "next-next" becomes "next",
and a fresh zero buffer becomes the new "next-next"; the three slots stay
distinct. -/
def monoRow3 (w s : Nat) (pw : ℚ → ℚ) (d : List ℚ) (j : Nat) (st : MonoSt3) : MonoSt3 :=
  let st1 := (List.range w).foldl (monoStep3 w s pw d j) st
  { st1 with cur := st1.nxt, nxt := st1.nxt2, nxt2 := List.replicate (w + 4) 0 }

/-- Modelled from the spec: `toMonoImage` with the §3 buffer rotation. -/
def toMonoImageSpecRot (pw : ℚ → ℚ) (img : ImageData) (s : Nat) : List Nat :=
  let w := img.width
  let zero : List ℚ := List.replicate (w + 4) 0
  let init : MonoSt3 := { cur := zero, nxt := zero, nxt2 := zero, n := 0, p := 0, out := [] }
  ((List.range img.height).foldl (fun st j => monoRow3 w s pw img.data j st) init).out

/-- The diffusion kernels exactly as the spec states them (§4.2): the
weight received by the cell `dr` rows below and `dc` columns to the right
of the current pixel, for algorithm `s` (1 Floyd–Steinberg, 2 Atkinson,
3 Stucki). -/
def kernelSpec (s dr : Nat) (dc : ℤ) : ℚ :=
  if s = 1 then
    if dr = 0 then (if dc = 1 then 7/16 else 0)
    else if dr = 1 then
      (if dc = -1 then 3/16 else if dc = 0 then 5/16 else if dc = 1 then 1/16 else 0)
    else 0
  else if s = 2 then
    if dr = 0 then (if dc = 1 ∨ dc = 2 then 1/8 else 0)
    else if dr = 1 then (if dc = -1 ∨ dc = 0 ∨ dc = 1 then 1/8 else 0)
    else if dr = 2 then (if dc = 0 then 1/8 else 0)
    else 0
  else if s = 3 then
    if dr = 0 then (if dc = 1 then 8/42 else if dc = 2 then 4/42 else 0)
    else if dr = 1 then
      (if dc = -2 then 2/42 else if dc = -1 then 4/42 else if dc = 0 then 8/42
       else if dc = 1 then 4/42 else if dc = 2 then 2/42 else 0)
    else if dr = 2 then
      (if dc = -2 then 1/42 else if dc = -1 then 2/42 else if dc = 0 then 4/42
       else if dc = 1 then 2/42 else if dc = 2 then 1/42 else 0)
    else 0
  else 0

/-- A 1×3 image (one column, three rows): a 100-gray pixel, a white pixel,
then a 120-gray pixel.  Exposes the buffer-rotation aliasing. -/
def c1data : List ℚ := [100, 100, 100, 255, 255, 255, 255, 255, 120, 120, 120, 255]

/-- An 8×1 row, all white except a black pixel in column 3: its unmodified
packing is the byte 16. -/
def c4data : List ℚ :=
  [255, 255, 255, 255, 255, 255, 255, 255, 255, 255, 255, 255, 0, 0, 0, 255,
   255, 255, 255, 255, 255, 255, 255, 255, 255, 255, 255, 255, 255, 255, 255, 255]

/-- A `w × h` image whose pixels are all `(255, 255, 255, 255)` (white). -/
def whiteData (w h : Nat) : List ℚ :=
  (List.replicate (w * h) ([255, 255, 255, 255] : List ℚ)).flatten

/-- A `w × h` image whose pixels are all `(0, 0, 0, 255)` (opaque black). -/
def blackData (w h : Nat) : List ℚ :=
  (List.replicate (w * h) ([0, 0, 0, 255] : List ℚ)).flatten

/-- One output row of `toMonoImage` on an all-black image: full bytes 255,
and a final partial byte with the top `w % 8` bits set. -/
def monoBlackRow (w : Nat) : List Nat :=
  List.replicate (w / 8) 255 ++ (if w % 8 = 0 then [] else [256 - 2 ^ (8 - w % 8)])

/-- One output row of `toGrayImage` on an all-white image: full bytes 255
(two 15-nibbles), and for odd width a final byte 240 (15 in the high
nibble, zero padding below). -/
def grayWhiteRow (w : Nat) : List Nat :=
  List.replicate (w / 2) 255 ++ (if w % 2 = 0 then [] else [240])

/-! ### List helper lemmas -/

theorem getD_oob {α : Type} (l : List α) (k : Nat) (d : α) (h : l.length ≤ k) :
    l.getD k d = d := by
  simp [List.getD_eq_getElem?_getD, List.getElem?_eq_none h]

theorem set_oob {α : Type} (l : List α) (k : Nat) (a : α) (h : l.length ≤ k) : l.set k a = l := by
  induction l generalizing k with
  | nil => rfl
  | cons x xs ih =>
    cases k with
    | zero => simp at h
    | succ k => simp only [List.set, List.length_cons] at h ⊢; rw [ih k (by omega)]

theorem setAdd_length (l : List ℚ) (k : Nat) (x : ℚ) : (setAdd l k x).length = l.length := by
  simp [setAdd]

theorem setAdd_getD (l : List ℚ) (k m : Nat) (x : ℚ) :
    (setAdd l k x).getD m 0 = l.getD m 0 + if m = k ∧ k < l.length then x else 0 := by
  by_cases hk : k < l.length
  · by_cases hm : m = k
    · subst hm
      simp only [setAdd, List.getD_eq_getElem?_getD, List.getElem?_set_eq_of_lt _ hk, hk,
        and_true, if_pos rfl]
      rw [List.getElem?_eq_getElem hk]
      rfl
    · simp only [setAdd, List.getD_eq_getElem?_getD, List.getElem?_set_ne (by omega : k ≠ m),
        hm, false_and, if_false, add_zero]
  · rw [setAdd, set_oob _ _ _ (by omega)]
    simp [hk]

theorem getD_replicate_zero (n k : Nat) : (List.replicate n (0 : ℚ)).getD k 0 = 0 := by
  induction n generalizing k with
  | zero => rfl
  | succ n ih =>
    cases k with
    | zero => rfl
    | succ k => simp only [List.replicate_succ, List.getD_cons_succ]; exact ih k

theorem setAdd_replicate_zero (n k : Nat) :
    setAdd (List.replicate n (0 : ℚ)) k 0 = List.replicate n 0 := by
  rw [setAdd, getD_replicate_zero, add_zero]
  induction n generalizing k with
  | zero => rfl
  | succ n ih =>
    cases k with
    | zero => simp [List.replicate_succ]
    | succ k => simp only [List.replicate_succ, List.set]; rw [ih k]

theorem chan_quad (q : List ℚ) (hq : q.length = 4) (N m r : Nat) (hm : m < N) (hr : r < 4) :
    chan ((List.replicate N q).flatten) (4 * m + r) = q.getD r 0 := by
  induction N generalizing m with
  | zero => omega
  | succ N ih =>
    rw [List.replicate_succ, List.flatten_cons]
    cases m with
    | zero =>
      simpa [chan] using List.getD_append q ((List.replicate N q).flatten) 0 (4 * 0 + r)
        (by omega)
    | succ m =>
      have h1 : q.length ≤ 4 * (m + 1) + r := by omega
      unfold chan
      rw [List.getD_append_right q _ 0 _ h1, hq]
      have h2 : 4 * (m + 1) + r - 4 = 4 * m + r := by omega
      rw [h2]
      exact ih m (by omega)

/-! ### Empty-width behaviour (no validation in the source) -/

theorem monoRow_w0_out (s : Nat) (pw : ℚ → ℚ) (d : List ℚ) (j : Nat) (st : MonoSt) :
    (monoRow 0 s pw d j st).out = st.out := rfl

theorem monoFold_w0_out (s : Nat) (pw : ℚ → ℚ) (d : List ℚ) (h : Nat) (st : MonoSt) :
    (((List.range h).foldl (fun st j => monoRow 0 s pw d j st) st)).out = st.out := by
  induction h generalizing st with
  | zero => rfl
  | succ h ih =>
    rw [List.range_succ, List.foldl_append, List.foldl_cons, List.foldl_nil, monoRow_w0_out]
    exact ih st

theorem toMonoImage_w0 (pw : ℚ → ℚ) (d : List ℚ) (h s : Nat) :
    toMonoImage pw ⟨d, 0, h⟩ s = [] :=
  monoFold_w0_out s pw d h _

theorem grayFold_w0_out (pw : ℚ → ℚ) (d : List ℚ) (h : Nat) (st : GraySt) :
    ((List.range h).foldl (fun st j => (List.range 0).foldl (grayStep 0 pw d j) st) st).out
      = st.out := by
  induction h generalizing st with
  | zero => rfl
  | succ h ih =>
    rw [List.range_succ, List.foldl_append, List.foldl_cons, List.foldl_nil]
    exact ih st

theorem toGrayImage_w0 (pw : ℚ → ℚ) (d : List ℚ) (h : Nat) :
    toGrayImage pw ⟨d, 0, h⟩ = [] :=
  grayFold_w0_out pw d h _

/-! ### Thermal table and grayscale quantization facts -/

theorem thermal_length : thermal.length = 256 := rfl

theorem thermal_le (k : Nat) : thermal.getD k 0 ≤ 255 := by
  by_cases h : k < 256
  · revert h
    have : ∀ k, k < 256 → thermal.getD k 0 ≤ 255 := by decide
    exact this k
  · rw [getD_oob thermal k 0 (by rw [thermal_length]; omega)]
    omega

theorem thermal_step (k : Nat) (h : k < 255) : thermal.getD k 0 ≤ thermal.getD (k + 1) 0 := by
  revert h
  have : ∀ k, k < 255 → thermal.getD k 0 ≤ thermal.getD (k + 1) 0 := by decide
  exact this k

theorem thermal_mono {a b : Nat} (hab : a ≤ b) (hb : b ≤ 255) :
    thermal.getD a 0 ≤ thermal.getD b 0 := by
  induction b with
  | zero =>
    have ha : a = 0 := by omega
    subst ha
    exact le_rfl
  | succ b ih =>
    rcases Nat.lt_or_ge a (b + 1) with h | h
    · exact le_trans (ih (by omega) (by omega)) (thermal_step b (by omega))
    · have : a = b + 1 := by omega
      subst this
      exact le_rfl

theorem grayLevel_le (idx m : Nat) : grayLevel idx m ≤ 15 := by
  unfold grayLevel
  have hv : thermal.getD idx 0 ≤ 255 := thermal_le idx
  split_ifs with h <;> omega

theorem grayLevel_mono {a b : Nat} (m : Nat) (hab : a ≤ b) (hb : b ≤ 255) :
    grayLevel a m ≤ grayLevel b m := by
  unfold grayLevel
  have hv : thermal.getD a 0 ≤ thermal.getD b 0 := thermal_mono hab hb
  split_ifs with h1 h2 <;> omega

theorem jsTrunc_nonneg (x : ℚ) (hx : 0 ≤ x) : jsTrunc x = ⌊x⌋ := by
  simp [jsTrunc, hx]

theorem idxOf_mono {x y : ℚ} (hx : 0 ≤ x) (hxy : x ≤ y) : idxOf x ≤ idxOf y := by
  unfold idxOf
  rw [jsTrunc_nonneg x hx, jsTrunc_nonneg y (le_trans hx hxy)]
  exact Int.toNat_le_toNat (Int.floor_le_floor hxy)

theorem idxOf_le_255 {x : ℚ} (hx : x ≤ 255) : idxOf x ≤ 255 := by
  unfold idxOf jsTrunc
  split
  · have h1 : ⌊x⌋ ≤ ⌊(255 : ℚ)⌋ := Int.floor_le_floor hx
    rw [show ⌊(255 : ℚ)⌋ = 255 by norm_num] at h1
    omega
  · rename_i h
    have h3 : (0 : ℚ) ≤ -x := by linarith [lt_of_not_le h]
    have h4 : (0 : ℤ) ≤ ⌊-x⌋ := Int.le_floor.mpr (by simpa using h3)
    omega

/-- Luminance bounds: channel values in [0, 255] give a composited,
normalized luminance in [0, 1]. -/
theorem lumAt_mem_unit (r g b a : ℚ) (hr : 0 ≤ r) (hr2 : r ≤ 255) (hg : 0 ≤ g) (hg2 : g ≤ 255)
    (hb : 0 ≤ b) (hb2 : b ≤ 255) (ha : 0 ≤ a) (ha2 : a ≤ 255) :
    0 ≤ lumAt [r, g, b, a] 0 ∧ lumAt [r, g, b, a] 0 ≤ 1 := by
  have hL1 : (0 : ℚ) ≤ r * 0.29891 + g * 0.58661 + b * 0.11448 := by positivity
  have hL2 : r * 0.29891 + g * 0.58661 + b * 0.11448 ≤ 255 := by nlinarith
  have hchan : lumAt [r, g, b, a] 0
      = (((r * 0.29891 + g * 0.58661 + b * 0.11448) * a) / 255 + 255 - a) / 255 := rfl
  constructor
  · rw [hchan]
    have : (0 : ℚ) ≤ ((r * 0.29891 + g * 0.58661 + b * 0.11448) * a) / 255 := by positivity
    linarith
  · rw [hchan]
    have : ((r * 0.29891 + g * 0.58661 + b * 0.11448) * a) / 255 ≤ a := by nlinarith
    linarith

/-! ### Diffusion kernel characterization -/

theorem diffuse_one_eq (err : ℚ) (i : Nat) (st : BufStore) :
    diffuse 1 err i (0, 1, 2) st
      = ⟨setAdd st.b0 (i+3) (err * 7/16),
         setAdd (setAdd (setAdd st.b1 (i+1) (err * 3/16)) (i+2) (err * 5/16)) (i+3) (err * 1/16),
         st.b2⟩ := rfl

theorem diffuse_two_eq (err : ℚ) (i : Nat) (st : BufStore) :
    diffuse 2 err i (0, 1, 2) st
      = ⟨setAdd (setAdd st.b0 (i+3) (err/8)) (i+4) (err/8),
         setAdd (setAdd (setAdd st.b1 (i+1) (err/8)) (i+2) (err/8)) (i+3) (err/8),
         setAdd st.b2 (i+2) (err/8)⟩ := rfl

theorem diffuse_three_eq (err : ℚ) (i : Nat) (st : BufStore) :
    diffuse 3 err i (0, 1, 2) st
      = ⟨setAdd (setAdd st.b0 (i+3) (err/42*8)) (i+4) (err/42*4),
         setAdd (setAdd (setAdd (setAdd (setAdd st.b1 i (err/42*2)) (i+1) (err/42*4)) (i+2)
           (err/42*8)) (i+3) (err/42*4)) (i+4) (err/42*2),
         setAdd (setAdd (setAdd (setAdd (setAdd st.b2 i (err/42*1)) (i+1) (err/42*2)) (i+2)
           (err/42*4)) (i+3) (err/42*2)) (i+4) (err/42*1)⟩ := rfl

set_option maxHeartbeats 4000000 in
/-- C5: in the diffusion modes, the quantization error `err` of the pixel
in column `i` is distributed into the three (distinct, ids `(0,1,2)`)
row buffers with exactly the per-algorithm kernel weights and offsets of
the spec: the entry of buffer `dr` at index `k` (buffer index `i+2+dc`
holds the cell `dc` columns from the current pixel) grows by
`err * kernelSpec s dr dc` and nothing else changes. -/
theorem C5_diffusion_kernel_weights (s : Nat) (hs : s = 1 ∨ s = 2 ∨ s = 3) (err : ℚ) (i : Nat)
    (st : BufStore) (L : Nat) (h0 : st.b0.length = L) (h1 : st.b1.length = L)
    (h2 : st.b2.length = L) (hiL : i + 5 ≤ L) (k : Nat) :
    (diffuse s err i (0, 1, 2) st).b0.getD k 0
        = st.b0.getD k 0 + err * kernelSpec s 0 ((k : ℤ) - (i + 2))
    ∧ (diffuse s err i (0, 1, 2) st).b1.getD k 0
        = st.b1.getD k 0 + err * kernelSpec s 1 ((k : ℤ) - (i + 2))
    ∧ (diffuse s err i (0, 1, 2) st).b2.getD k 0
        = st.b2.getD k 0 + err * kernelSpec s 2 ((k : ℤ) - (i + 2)) := by
  rcases hs with hs | hs | hs <;> subst hs
  · rw [diffuse_one_eq]
    refine ⟨?_, ?_, ?_⟩ <;>
      simp only [setAdd_getD, setAdd_length, h0, h1, h2, kernelSpec] <;>
      norm_num <;> split_ifs <;> first | ring1 | (exfalso; omega)
  · rw [diffuse_two_eq]
    refine ⟨?_, ?_, ?_⟩ <;>
      simp only [setAdd_getD, setAdd_length, h0, h1, h2, kernelSpec] <;>
      norm_num <;> split_ifs <;> first | ring1 | (exfalso; omega)
  · rw [diffuse_three_eq]
    refine ⟨?_, ?_, ?_⟩ <;>
      simp only [setAdd_getD, setAdd_length, h0, h1, h2, kernelSpec] <;>
      norm_num <;> split_ifs <;> first | ring1 | (exfalso; omega)

/-- Witness for C5: Floyd–Steinberg at column 0 of zeroed length-5 buffers,
error 16: the current-row buffer gains `16 * 7/16` at index 3
(column offset `+1`). -/
theorem C5_witness :
    (diffuse 1 16 0 (0, 1, 2)
        ⟨List.replicate 5 0, List.replicate 5 0, List.replicate 5 0⟩).b0.getD 3 0
      = (List.replicate 5 (0 : ℚ)).getD 3 0 + 16 * kernelSpec 1 0 ((3 : ℤ) - (0 + 2)) :=
  (C5_diffusion_kernel_weights 1 (Or.inl rfl) 16 0
    ⟨List.replicate 5 0, List.replicate 5 0, List.replicate 5 0⟩ 5 rfl rfl rfl
    (by omega) 3).1

/-! ### Bitwise and folding helpers -/

theorem lor_lt_256 {a b : Nat} (ha : a < 256) (hb : b < 256) : a ||| b < 256 := by
  have h : a ||| b < 2 ^ 8 := Nat.bitwise_lt (by norm_num; omega) (by norm_num; omega)
  omega

theorem mod_two_pow_testBit {x e : Nat} (hx : x % 2 ^ e = 0) {i : Nat} (hi : i < e) :
    x.testBit i = false := by
  have h := Nat.testBit_mod_two_pow x e i
  rw [hx, Nat.zero_testBit] at h
  simpa [hi] using h.symm

theorem mod_two_pow_lor {a b e : Nat} (ha : a % 2 ^ e = 0) (hb : b % 2 ^ e = 0) :
    (a ||| b) % 2 ^ e = 0 := by
  apply Nat.eq_of_testBit_eq
  intro i
  rw [Nat.zero_testBit, Nat.testBit_mod_two_pow]
  by_cases hi : i < e
  · simp [hi, Nat.testBit_lor, mod_two_pow_testBit ha hi, mod_two_pow_testBit hb hi]
  · simp [hi]

theorem mod_two_pow_mono {a e1 e2 : Nat} (h : a % 2 ^ e2 = 0) (he : e1 ≤ e2) :
    a % 2 ^ e1 = 0 := by
  have h1 : 2 ^ e1 ∣ 2 ^ e2 := pow_dvd_pow 2 he
  have h2 : 2 ^ e2 ∣ a := Nat.dvd_of_mod_eq_zero h
  exact Nat.mod_eq_zero_of_dvd (dvd_trans h1 h2)

theorem shiftRight_128 {m : Nat} (hm : m < 8) : 128 >>> m = 2 ^ (7 - m) := by
  interval_cases m <;> rfl

theorem shiftRight_128_lt {m : Nat} : 128 >>> m < 256 := by
  have h : 128 >>> m = 128 / 2 ^ m := Nat.shiftRight_eq_div_pow 128 m
  have h2 : 128 / 2 ^ m ≤ 128 := Nat.div_le_self _ _
  omega

theorem flushByte_mod_ne_16 {n : Nat} (hn : n < 256) : flushByte n % 256 ≠ 16 := by
  unfold flushByte
  split_ifs with h
  · decide
  · rw [Nat.mod_eq_of_lt hn]
    exact h

theorem flushByte_mod_div {n e : Nat} (hn : n < 256) (he1 : 1 ≤ e) (he2 : e ≤ 7)
    (hmod : n % 2 ^ e = 0) : (flushByte n % 256) % 2 ^ e = 0 := by
  unfold flushByte
  split_ifs with h
  · subst h
    interval_cases e <;> first | decide | (exact absurd hmod (by decide))
  · rw [Nat.mod_eq_of_lt hn]
    exact hmod

theorem foldl_range_succ {α : Type} (f : α → Nat → α) (st : α) (n : Nat) :
    List.foldl f st (List.range (n + 1)) = f (List.foldl f st (List.range n)) n := by
  rw [List.range_succ, List.foldl_append, List.foldl_cons, List.foldl_nil]

theorem getD_append_last (l : List Nat) (x : Nat) : (l ++ [x]).getD l.length 0 = x := by
  rw [List.getD_append_right _ _ _ _ le_rfl]
  simp

/-! ### Structure of the monochrome output -/

theorem monoStep_ids (w s : Nat) (pw : ℚ → ℚ) (d : List ℚ) (j : Nat) (st : MonoSt) (i : Nat) :
    (monoStep w s pw d j st i).ids = st.ids := by
  unfold monoStep
  split <;> rfl

theorem monoStep_p (w s : Nat) (pw : ℚ → ℚ) (d : List ℚ) (j : Nat) (st : MonoSt) (i : Nat) :
    (monoStep w s pw d j st i).p = st.p + 4 := by
  unfold monoStep
  split <;> rfl

theorem monoStep_out (w s : Nat) (pw : ℚ → ℚ) (d : List ℚ) (j : Nat) (st : MonoSt) (i : Nat) :
    (monoStep w s pw d j st i).out
      = if i % 8 = 7 ∨ i = w - 1 then st.out ++ [flushByte (monoN1 s pw d j st i) % 256]
        else st.out := by
  unfold monoStep
  split <;> simp_all

theorem monoStep_n (w s : Nat) (pw : ℚ → ℚ) (d : List ℚ) (j : Nat) (st : MonoSt) (i : Nat) :
    (monoStep w s pw d j st i).n
      = if i % 8 = 7 ∨ i = w - 1 then 0 else monoN1 s pw d j st i := by
  unfold monoStep
  split <;> simp_all

theorem monoN1_lt {s : Nat} {pw : ℚ → ℚ} {d : List ℚ} {j : Nat} {st : MonoSt} {i : Nat}
    (hn : st.n < 256) : monoN1 s pw d j st i < 256 := by
  unfold monoN1
  split
  · exact lor_lt_256 hn shiftRight_128_lt
  · exact hn

theorem monoN1_mod {s : Nat} {pw : ℚ → ℚ} {d : List ℚ} {j : Nat} {st : MonoSt} {i : Nat}
    (hm : st.n % 2 ^ (8 - i % 8) = 0) : monoN1 s pw d j st i % 2 ^ (7 - i % 8) = 0 := by
  unfold monoN1
  split
  · apply mod_two_pow_lor
    · exact mod_two_pow_mono hm (by omega)
    · rw [shiftRight_128 (Nat.mod_lt _ (by omega))]
      exact Nat.mod_self _
  · exact mod_two_pow_mono hm (by omega)

/-- Invariant of the `toMonoImage` column loop: after the first `i`
columns of a row started with a clear running byte, the output has grown
by `⌈i/8⌉`-ish flushed bytes (none equal to 16, all below 256), the
running byte stays below 256 with its low `8 - i%8` bits clear, the input
pointer advanced `4i`, and — once the row is complete and the width is not
a multiple of 8 — the row's final byte has its padding bits clear. -/
theorem monoRow_fold_inv (w s : Nat) (pw : ℚ → ℚ) (d : List ℚ) (j : Nat) (st : MonoSt)
    (hw : 1 ≤ w) (hn : st.n = 0) (i : Nat) (hi : i ≤ w) :
    ∃ bytes : List Nat,
      (List.foldl (monoStep w s pw d j) st (List.range i)).out = st.out ++ bytes
      ∧ bytes.length = i / 8 + (if i = w ∧ w % 8 ≠ 0 then 1 else 0)
      ∧ (∀ x ∈ bytes, x ≠ 16 ∧ x < 256)
      ∧ (List.foldl (monoStep w s pw d j) st (List.range i)).n < 256
      ∧ (List.foldl (monoStep w s pw d j) st (List.range i)).n % 2 ^ (8 - i % 8) = 0
      ∧ (w ≤ i → (List.foldl (monoStep w s pw d j) st (List.range i)).n = 0)
      ∧ (List.foldl (monoStep w s pw d j) st (List.range i)).p = st.p + 4 * i
      ∧ (i = w ∧ w % 8 ≠ 0 →
          bytes.getD (bytes.length - 1) 0 % 2 ^ (8 - w % 8) = 0) := by
  induction i with
  | zero =>
    simp only [List.range_zero, List.foldl_nil]
    refine ⟨[], by simp, ?_, by simp, by simp [hn], by simp [hn], fun _ => hn, by simp, ?_⟩
    · rw [if_neg (by omega)]
      simp
    · rintro ⟨hcon, -⟩
      exact absurd hcon (by omega)
  | succ i ih =>
    have hi' : i ≤ w := by omega
    have hiw : i < w := by omega
    obtain ⟨bytes, hout, hlen, hmem, hnlt, hnmod, hn0, hp, hlast⟩ := ih hi'
    rw [foldl_range_succ]
    set T := List.foldl (monoStep w s pw d j) st (List.range i) with hT
    by_cases hf : i % 8 = 7 ∨ i = w - 1
    · refine ⟨bytes ++ [flushByte (monoN1 s pw d j T i) % 256], ?_, ?_, ?_, ?_, ?_, ?_, ?_, ?_⟩
      · rw [monoStep_out, if_pos hf, hout, List.append_assoc]
      · simp only [List.length_append, List.length_cons, List.length_nil, hlen]
        split_ifs <;> omega
      · intro x hx
        rcases List.mem_append.mp hx with hx | hx
        · exact hmem x hx
        · rw [List.mem_singleton] at hx
          subst hx
          exact ⟨flushByte_mod_ne_16 (monoN1_lt hnlt), Nat.mod_lt _ (by omega)⟩
      · rw [monoStep_n, if_pos hf]
        omega
      · rw [monoStep_n, if_pos hf]
        simp
      · intro _
        rw [monoStep_n, if_pos hf]
      · rw [monoStep_p, hp]
        omega
      · rintro ⟨hiw1, hw8⟩
        rw [show (bytes ++ [flushByte (monoN1 s pw d j T i) % 256]).length - 1
            = bytes.length by simp]
        rw [getD_append_last]
        apply flushByte_mod_div (monoN1_lt hnlt) (by omega) (by omega)
        have h78 : 7 - i % 8 = 8 - w % 8 := by omega
        rw [← h78]
        exact monoN1_mod hnmod
    · refine ⟨bytes, ?_, ?_, hmem, ?_, ?_, ?_, ?_, ?_⟩
      · rw [monoStep_out, if_neg hf, hout]
      · rw [hlen]
        split_ifs <;> omega
      · rw [monoStep_n, if_neg hf]
        exact monoN1_lt hnlt
      · rw [monoStep_n, if_neg hf]
        have h8 : 8 - (i + 1) % 8 = 7 - i % 8 := by omega
        rw [h8]
        exact monoN1_mod hnmod
      · intro hcon
        exact absurd (Or.inr (by omega)) hf
      · rw [monoStep_p, hp]
        omega
      · rintro ⟨hcon, -⟩
        exact absurd (Or.inr (by omega)) hf

/-- One full `toMonoImage` row appends exactly `(w+7)/8` bytes: none is
16, all are bytes, the running byte ends clear, the pointer advances one
pixel row, and for `w % 8 ≠ 0` the final byte's padding bits are clear. -/
theorem monoRow_struct (w s : Nat) (pw : ℚ → ℚ) (d : List ℚ) (j : Nat) (st : MonoSt)
    (hw : 1 ≤ w) (hn : st.n = 0) :
    ∃ bytes : List Nat,
      (monoRow w s pw d j st).out = st.out ++ bytes
      ∧ bytes.length = (w + 7) / 8
      ∧ (∀ x ∈ bytes, x ≠ 16 ∧ x < 256)
      ∧ (monoRow w s pw d j st).n = 0
      ∧ (monoRow w s pw d j st).p = st.p + 4 * w
      ∧ (w % 8 ≠ 0 → bytes.getD (bytes.length - 1) 0 % 2 ^ (8 - w % 8) = 0) := by
  obtain ⟨bytes, hout, hlen, hmem, _, _, hn0, hp, hlast⟩ :=
    monoRow_fold_inv w s pw d j
      { st with store :=
          st.store.put st.ids.2.2 (List.replicate (st.store.get st.ids.2.2).length 0) }
      hw hn w le_rfl
  refine ⟨bytes, hout, ?_, hmem, hn0 le_rfl, hp, fun h8 => hlast ⟨rfl, h8⟩⟩
  rw [hlen]
  split_ifs <;> omega

/-- Structure of the full `toMonoImage` pass: one chunk of `(w+7)/8` bytes
per row, no byte 16 anywhere, all bytes below 256, and clear padding bits
in each row's final byte when `w % 8 ≠ 0`. -/
theorem monoFold_rows_struct (w s : Nat) (pw : ℚ → ℚ) (d : List ℚ) (hw : 1 ≤ w) (h : Nat) :
    ∀ st : MonoSt, st.n = 0 →
    ∃ chunks : List (List Nat),
      ((List.range h).foldl (fun st j => monoRow w s pw d j st) st).out
        = st.out ++ chunks.flatten
      ∧ ((List.range h).foldl (fun st j => monoRow w s pw d j st) st).n = 0
      ∧ chunks.length = h
      ∧ ∀ c ∈ chunks, c.length = (w + 7) / 8
          ∧ (∀ x ∈ c, x ≠ 16 ∧ x < 256)
          ∧ (w % 8 ≠ 0 → c.getD ((w + 7) / 8 - 1) 0 % 2 ^ (8 - w % 8) = 0) := by
  induction h with
  | zero =>
    intro st hn
    refine ⟨[], ?_, ?_, rfl, by simp⟩
    · simp only [List.range_zero, List.foldl_nil, List.flatten_nil, List.append_nil]
    · simp only [List.range_zero, List.foldl_nil]
      exact hn
  | succ h ih =>
    intro st hn
    obtain ⟨chunks, hout, hn', hlen, hprops⟩ := ih st hn
    rw [foldl_range_succ]
    set T := (List.range h).foldl (fun st j => monoRow w s pw d j st) st with hT
    obtain ⟨bytes, hbout, hblen, hbmem, hbn, _, hblast⟩ := monoRow_struct w s pw d h T hw hn'
    refine ⟨chunks ++ [bytes], ?_, hbn, by simp [hlen], ?_⟩
    · rw [hbout, hout, List.flatten_append, List.flatten_cons, List.flatten_nil,
        List.append_nil, List.append_assoc]
    · intro c hc
      rcases List.mem_append.mp hc with hc | hc
      · exact hprops c hc
      · rw [List.mem_singleton] at hc
        subst hc
        refine ⟨hblen, hbmem, fun h8 => ?_⟩
        have hx := hblast h8
        rwa [hblen] at hx

theorem monoImage_struct (pw : ℚ → ℚ) (d : List ℚ) (w h s : Nat) (hw : 1 ≤ w) :
    ∃ chunks : List (List Nat),
      toMonoImage pw ⟨d, w, h⟩ s = chunks.flatten
      ∧ chunks.length = h
      ∧ ∀ c ∈ chunks, c.length = (w + 7) / 8
          ∧ (∀ x ∈ c, x ≠ 16 ∧ x < 256)
          ∧ (w % 8 ≠ 0 → c.getD ((w + 7) / 8 - 1) 0 % 2 ^ (8 - w % 8) = 0) := by
  obtain ⟨chunks, hout, _, hlen, hprops⟩ :=
    monoFold_rows_struct w s pw d hw h
      ⟨⟨List.replicate (w + 4) 0, List.replicate (w + 4) 0, List.replicate (w + 4) 0⟩,
       (0, 1, 2), 0, 0, []⟩ rfl
  refine ⟨chunks, ?_, hlen, hprops⟩
  simpa using hout

/-! ### Structure of the grayscale output -/

theorem grayStep_p (w : Nat) (pw : ℚ → ℚ) (d : List ℚ) (j : Nat) (st : GraySt) (i : Nat) :
    (grayStep w pw d j st i).p = st.p + 4 := by
  unfold grayStep
  split <;> rfl

theorem grayStep_out (w : Nat) (pw : ℚ → ℚ) (d : List ℚ) (j : Nat) (st : GraySt) (i : Nat) :
    (grayStep w pw d j st i).out
      = if i % 2 = 1 ∨ i = w - 1 then st.out ++ [grayN1 pw d j st i % 256] else st.out := by
  unfold grayStep
  split <;> simp_all

theorem grayStep_n (w : Nat) (pw : ℚ → ℚ) (d : List ℚ) (j : Nat) (st : GraySt) (i : Nat) :
    (grayStep w pw d j st i).n
      = if i % 2 = 1 ∨ i = w - 1 then 0 else grayN1 pw d j st i := by
  unfold grayStep
  split <;> simp_all

theorem shl4_mod16 (x : Nat) : ((x <<< 4) % 256) % 16 = 0 := by
  rw [Nat.shiftLeft_eq]
  rw [show (2 : Nat) ^ 4 = 16 from rfl, show (256 : Nat) = 16 * 16 from rfl,
    Nat.mul_comm x 16, Nat.mul_mod_mul_left]
  exact Nat.mul_mod_right 16 _

/-- An even column's flushed byte has a clear low nibble: the level lands
in the high nibble and the running byte was clear. -/
theorem grayN1_even {pw : ℚ → ℚ} {d : List ℚ} {j : Nat} {st : GraySt} {i : Nat}
    (hn : st.n = 0) (hpar : i % 2 = 0) : grayN1 pw d j st i % 256 % 16 = 0 := by
  unfold grayN1
  rw [hn, Nat.zero_or, hpar]
  exact shl4_mod16 _

/-- Invariant of the `toGrayImage` column loop. -/
theorem grayRow_fold_inv (w : Nat) (pw : ℚ → ℚ) (d : List ℚ) (j : Nat) (st : GraySt)
    (hw : 1 ≤ w) (hn : st.n = 0) (i : Nat) (hi : i ≤ w) :
    ∃ bytes : List Nat,
      (List.foldl (grayStep w pw d j) st (List.range i)).out = st.out ++ bytes
      ∧ bytes.length = i / 2 + (if i = w ∧ w % 2 ≠ 0 then 1 else 0)
      ∧ (i % 2 = 0 → (List.foldl (grayStep w pw d j) st (List.range i)).n = 0)
      ∧ (w ≤ i → (List.foldl (grayStep w pw d j) st (List.range i)).n = 0)
      ∧ (List.foldl (grayStep w pw d j) st (List.range i)).p = st.p + 4 * i
      ∧ (i = w ∧ w % 2 ≠ 0 → bytes.getD (bytes.length - 1) 0 % 16 = 0) := by
  induction i with
  | zero =>
    simp only [List.range_zero, List.foldl_nil]
    refine ⟨[], by simp, ?_, fun _ => hn, fun _ => hn, by simp, ?_⟩
    · rw [if_neg (by omega)]
      simp
    · rintro ⟨hcon, -⟩
      exact absurd hcon (by omega)
  | succ i ih =>
    have hi' : i ≤ w := by omega
    have hiw : i < w := by omega
    obtain ⟨bytes, hout, hlen, hpar, hn0, hp, hlast⟩ := ih hi'
    rw [foldl_range_succ]
    set T := List.foldl (grayStep w pw d j) st (List.range i) with hT
    by_cases hf : i % 2 = 1 ∨ i = w - 1
    · refine ⟨bytes ++ [grayN1 pw d j T i % 256], ?_, ?_, ?_, ?_, ?_, ?_⟩
      · rw [grayStep_out, if_pos hf, hout, List.append_assoc]
      · simp only [List.length_append, List.length_cons, List.length_nil, hlen]
        split_ifs <;> omega
      · intro _
        rw [grayStep_n, if_pos hf]
      · intro _
        rw [grayStep_n, if_pos hf]
      · rw [grayStep_p, hp]
        omega
      · rintro ⟨hiw1, hw2⟩
        rw [show (bytes ++ [grayN1 pw d j T i % 256]).length - 1 = bytes.length by simp]
        rw [getD_append_last]
        exact grayN1_even (hpar (by omega)) (by omega)
    · refine ⟨bytes, ?_, ?_, ?_, ?_, ?_, ?_⟩
      · rw [grayStep_out, if_neg hf, hout]
      · rw [hlen]
        split_ifs <;> omega
      · intro hcon
        exact absurd (Or.inl (by omega)) hf
      · intro hcon
        exact absurd (Or.inr (by omega)) hf
      · rw [grayStep_p, hp]
        omega
      · rintro ⟨hcon, -⟩
        exact absurd (Or.inr (by omega)) hf

/-- Structure of the full `toGrayImage` pass: one chunk of `(w+1)/2` bytes
per row, and for odd widths a clear low nibble in each row's final byte. -/
theorem grayFold_rows_struct (w : Nat) (pw : ℚ → ℚ) (d : List ℚ) (hw : 1 ≤ w) (h : Nat) :
    ∀ st : GraySt, st.n = 0 →
    ∃ chunks : List (List Nat),
      ((List.range h).foldl
          (fun st j => (List.range w).foldl (grayStep w pw d j) st) st).out
        = st.out ++ chunks.flatten
      ∧ ((List.range h).foldl
          (fun st j => (List.range w).foldl (grayStep w pw d j) st) st).n = 0
      ∧ chunks.length = h
      ∧ ∀ c ∈ chunks, c.length = (w + 1) / 2
          ∧ (w % 2 ≠ 0 → c.getD ((w + 1) / 2 - 1) 0 % 16 = 0) := by
  induction h with
  | zero =>
    intro st hn
    refine ⟨[], ?_, ?_, rfl, by simp⟩
    · simp only [List.range_zero, List.foldl_nil, List.flatten_nil, List.append_nil]
    · simp only [List.range_zero, List.foldl_nil]
      exact hn
  | succ h ih =>
    intro st hn
    obtain ⟨chunks, hout, hn', hlen, hprops⟩ := ih st hn
    rw [foldl_range_succ]
    set T := (List.range h).foldl (fun st j => (List.range w).foldl (grayStep w pw d j) st) st
      with hT
    obtain ⟨bytes, hbout, hblen, _, hbn, _, hblast⟩ :=
      grayRow_fold_inv w pw d h T hw hn' w le_rfl
    have hblen' : bytes.length = (w + 1) / 2 := by
      rw [hblen]
      split_ifs <;> omega
    refine ⟨chunks ++ [bytes], ?_, hbn le_rfl, by simp [hlen], ?_⟩
    · rw [hbout, hout, List.flatten_append, List.flatten_cons, List.flatten_nil,
        List.append_nil, List.append_assoc]
    · intro c hc
      rcases List.mem_append.mp hc with hc | hc
      · exact hprops c hc
      · rw [List.mem_singleton] at hc
        subst hc
        refine ⟨hblen', fun h2 => ?_⟩
        have hx := hblast ⟨rfl, h2⟩
        rwa [hblen'] at hx

theorem grayImage_struct (pw : ℚ → ℚ) (d : List ℚ) (w h : Nat) (hw : 1 ≤ w) :
    ∃ chunks : List (List Nat),
      toGrayImage pw ⟨d, w, h⟩ = chunks.flatten
      ∧ chunks.length = h
      ∧ ∀ c ∈ chunks, c.length = (w + 1) / 2
          ∧ (w % 2 ≠ 0 → c.getD ((w + 1) / 2 - 1) 0 % 16 = 0) := by
  obtain ⟨chunks, hout, _, hlen, hprops⟩ :=
    grayFold_rows_struct w pw d hw h ⟨0, 0, []⟩ rfl
  refine ⟨chunks, ?_, hlen, hprops⟩
  simpa using hout

/-! ### Flatten helpers -/

theorem flatten_length_const (chunks : List (List Nat)) (B : Nat)
    (h : ∀ c ∈ chunks, c.length = B) : chunks.flatten.length = chunks.length * B := by
  induction chunks with
  | nil => simp
  | cons c cs ih =>
    rw [List.flatten_cons, List.length_append, List.length_cons,
      h c (List.mem_cons_self c cs), ih (fun x hx => h x (List.mem_cons_of_mem c hx))]
    ring

theorem getD_mem {α : Type} (l : List α) (j : Nat) (e : α) (hj : j < l.length) :
    l.getD j e ∈ l := by
  rw [List.getD_eq_getElem?_getD, List.getElem?_eq_getElem hj]
  exact List.getElem_mem hj

theorem flatten_getD_const : ∀ (chunks : List (List Nat)) (B : Nat),
    (∀ c ∈ chunks, c.length = B) → ∀ j r, j < chunks.length → r < B →
    chunks.flatten.getD (B * j + r) 0 = (chunks.getD j []).getD r 0 := by
  intro chunks
  induction chunks with
  | nil =>
    intro B h j r hj hr
    simp at hj
  | cons c cs ih =>
    intro B h j r hj hr
    rw [List.flatten_cons]
    have hc : c.length = B := h c (List.mem_cons_self c cs)
    cases j with
    | zero =>
      rw [List.getD_append _ _ _ _ (by omega)]
      simp
    | succ j =>
      have hge : c.length ≤ B * (j + 1) + r := by rw [hc, Nat.mul_succ]; omega
      rw [List.getD_append_right _ _ _ _ hge]
      have hidx : B * (j + 1) + r - c.length = B * j + r := by rw [hc, Nat.mul_succ]; omega
      rw [hidx]
      have hrec := ih B (fun x hx => h x (List.mem_cons_of_mem c hx)) j r
        (by simpa using Nat.lt_of_succ_lt_succ (by simpa using hj)) hr
      simpa using hrec

/-! ### Claims C9 and C10: grayscale quantization -/

/-- C9: with a fixed gamma curve, for two pixel positions whose 4×4
dither-matrix entries agree, a strictly greater sampled brightness
(`β = Math.pow(lum, 1/g) * 255`, here `0 ≤ β₂ < β₁ ≤ 255`) never yields a
strictly lower 4-bit level; this rests on the monotonicity of the embedded
thermal table. -/
theorem C9_gray_monotone (j1 i1 j2 i2 : Nat) (hm : m4At j1 i1 = m4At j2 i2)
    (x1 x2 : ℚ) (hb0 : 0 ≤ x2) (hb : x2 < x1) (hb1 : x1 ≤ 255) :
    grayLevel (idxOf x2) (m4At j2 i2) ≤ grayLevel (idxOf x1) (m4At j1 i1) := by
  rw [hm]
  exact grayLevel_mono _ (idxOf_mono hb0 hb.le) (idxOf_le_255 hb1)

/-- Witness for C9: positions (0,0) and (4,4) share the matrix entry 0;
brightness 200 vs 100. -/
theorem C9_witness :
    m4At 0 0 = m4At 4 4
    ∧ grayLevel (idxOf 100) (m4At 4 4) ≤ grayLevel (idxOf 200) (m4At 0 0) :=
  ⟨rfl, C9_gray_monotone 0 0 4 4 rfl 200 100 (by norm_num) (by norm_num) (by norm_num)⟩

/-- C10: for channel values in [0,255] and any gamma curve mapping [0,1]
into [0,1] (as `x ↦ x^(1/g)` does for every `g > 0`), the thermal-table
index `(pow(lum,1/g)*255) | 0` lies in [0,255] and the emitted 4-bit level
is at most 15, so a packed nibble never carries into its neighbour. -/
theorem C10_gray_nibble_bounds (pw : ℚ → ℚ)
    (hpw : ∀ x : ℚ, 0 ≤ x → x ≤ 1 → 0 ≤ pw x ∧ pw x ≤ 1)
    (r g b a : ℚ) (hr0 : 0 ≤ r) (hr1 : r ≤ 255) (hg0 : 0 ≤ g) (hg1 : g ≤ 255)
    (hb0 : 0 ≤ b) (hb1 : b ≤ 255) (ha0 : 0 ≤ a) (ha1 : a ≤ 255) (m : Nat) :
    0 ≤ jsTrunc (pw (lumAt [r, g, b, a] 0) * 255)
    ∧ jsTrunc (pw (lumAt [r, g, b, a] 0) * 255) ≤ 255
    ∧ grayLevel (idxOf (pw (lumAt [r, g, b, a] 0) * 255)) m ≤ 15 := by
  obtain ⟨hl0, hl1⟩ := lumAt_mem_unit r g b a hr0 hr1 hg0 hg1 hb0 hb1 ha0 ha1
  obtain ⟨hp0, hp1⟩ := hpw _ hl0 hl1
  have hx0 : 0 ≤ pw (lumAt [r, g, b, a] 0) * 255 := by nlinarith
  have hx1 : pw (lumAt [r, g, b, a] 0) * 255 ≤ 255 := by nlinarith
  refine ⟨?_, ?_, grayLevel_le _ _⟩
  · rw [jsTrunc_nonneg _ hx0]
    exact Int.le_floor.mpr (by exact_mod_cast hx0)
  · rw [jsTrunc_nonneg _ hx0]
    have hf := Int.floor_le_floor hx1
    rw [show ⌊(255 : ℚ)⌋ = 255 by norm_num] at hf
    exact hf

/-- Witness for C10: the identity gamma curve (gamma 1) on the pixel
(100,100,100,100), matrix entry 3. -/
theorem C10_witness :
    0 ≤ jsTrunc (id (lumAt [(100 : ℚ), 100, 100, 100] 0) * 255)
    ∧ jsTrunc (id (lumAt [(100 : ℚ), 100, 100, 100] 0) * 255) ≤ 255
    ∧ grayLevel (idxOf (id (lumAt [(100 : ℚ), 100, 100, 100] 0) * 255)) 3 ≤ 15 :=
  C10_gray_nibble_bounds id (fun _ h1 h2 => ⟨h1, h2⟩) 100 100 100 100
    (by norm_num) (by norm_num) (by norm_num) (by norm_num)
    (by norm_num) (by norm_num) (by norm_num) (by norm_num) 3

/-! ### Claim C3: no dimension validation exists in the source -/

/-- Counterexample for C3: at width 0 (≤ 0) with an empty (consistent
only for width 0) buffer, both converters return normally with an empty
output buffer — neither fails with `InvalidDimensions`; the source
functions have no failure path at all. -/
theorem C3_counterexample :
    toMonoImage id ⟨[], 0, 1⟩ 1 = [] ∧ toGrayImage id ⟨[], 0, 1⟩ = [] :=
  ⟨toMonoImage_w0 id [] 1 1, toGrayImage_w0 id [] 1⟩

/-- C3 (amended): the converters perform no input validation and never
fail; a degenerate width-0 input of any height and any buffer is accepted
and yields the empty packed buffer. -/
theorem C3_no_validation (pw : ℚ → ℚ) (d : List ℚ) (h s : Nat) :
    toMonoImage pw ⟨d, 0, h⟩ s = [] ∧ toGrayImage pw ⟨d, 0, h⟩ = [] :=
  ⟨toMonoImage_w0 pw d h s, toGrayImage_w0 pw d h⟩

/-! ### Claim C1: the shift/push rotation aliases the row buffers -/

theorem c1_row0 :
    monoRow 1 2 id c1data 0
      ⟨⟨List.replicate 5 0, List.replicate 5 0, List.replicate 5 0⟩, (0, 1, 2), 0, 0, []⟩
    = ⟨⟨[0, 0, 0, 25/2, 25/2], [0, 25/2, 25/2, 25/2, 0], [0, 0, 25/2, 0, 0]⟩,
       (1, 2, 2), 0, 4, [128]⟩ := by
  norm_num [monoRow, monoStep, monoV, monoT, monoN1, monoErr, monoStore1, diffuse,
    BufStore.bump, BufStore.get, BufStore.put, setAdd, flushByte, c1data, lumAt, chan,
    List.range_succ, List.replicate]

theorem c1_row1 :
    monoRow 1 2 id c1data 1
      ⟨⟨[0, 0, 0, 25/2, 25/2], [0, 25/2, 25/2, 25/2, 0], [0, 0, 25/2, 0, 0]⟩,
       (1, 2, 2), 0, 4, [128]⟩
    = ⟨⟨[0, 0, 0, 25/2, 25/2], [0, 25/2, 25/2, 225/16, 25/16], [0, 25/16, 25/8, 25/16, 0]⟩,
       (2, 2, 2), 0, 8, [128, 0]⟩ := by
  norm_num [monoRow, monoStep, monoV, monoT, monoN1, monoErr, monoStore1, diffuse,
    BufStore.bump, BufStore.get, BufStore.put, setAdd, flushByte, c1data, lumAt, chan,
    List.range_succ, List.replicate]

theorem c1_row2 :
    monoRow 1 2 id c1data 2
      ⟨⟨[0, 0, 0, 25/2, 25/2], [0, 25/2, 25/2, 225/16, 25/16], [0, 25/16, 25/8, 25/16, 0]⟩,
       (2, 2, 2), 0, 8, [128, 0]⟩
    = ⟨⟨[0, 0, 0, 25/2, 25/2], [0, 25/2, 25/2, 225/16, 25/16], [0, 15, 30, 30, 15]⟩,
       (2, 2, 2), 0, 12, [128, 0, 128]⟩ := by
  norm_num [monoRow, monoStep, monoV, monoT, monoN1, monoErr, monoStore1, diffuse,
    BufStore.bump, BufStore.get, BufStore.put, setAdd, flushByte, c1data, lumAt, chan,
    List.range_succ, List.replicate]

theorem c1_code_out : toMonoImage id ⟨c1data, 1, 3⟩ 2 = [128, 0, 128] := by
  show (List.foldl (fun st j => monoRow 1 2 id c1data j st)
      ⟨⟨List.replicate 5 0, List.replicate 5 0, List.replicate 5 0⟩, (0, 1, 2), 0, 0, []⟩
      (List.range 3)).out = [128, 0, 128]
  rw [show List.range 3 = [0, 1, 2] from rfl]
  simp only [List.foldl_cons, List.foldl_nil]
  rw [c1_row0, c1_row1, c1_row2]

theorem c1s_row0 :
    monoRow3 1 2 id c1data 0
      ⟨List.replicate 5 0, List.replicate 5 0, List.replicate 5 0, 0, 0, []⟩
    = ⟨[0, 25/2, 25/2, 25/2, 0], [0, 0, 25/2, 0, 0], [0, 0, 0, 0, 0], 0, 4, [128]⟩ := by
  norm_num [monoRow3, monoStep3, diffuse3, setAdd, flushByte, c1data, lumAt, chan,
    List.range_succ, List.replicate]

theorem c1s_row1 :
    monoRow3 1 2 id c1data 1
      ⟨[0, 25/2, 25/2, 25/2, 0], [0, 0, 25/2, 0, 0], [0, 0, 0, 0, 0], 0, 4, [128]⟩
    = ⟨[0, 25/16, 225/16, 25/16, 0], [0, 0, 25/16, 0, 0], [0, 0, 0, 0, 0], 0, 8,
       [128, 0]⟩ := by
  norm_num [monoRow3, monoStep3, diffuse3, setAdd, flushByte, c1data, lumAt, chan,
    List.range_succ, List.replicate]

theorem c1s_row2 :
    monoRow3 1 2 id c1data 2
      ⟨[0, 25/16, 225/16, 25/16, 0], [0, 0, 25/16, 0, 0], [0, 0, 0, 0, 0], 0, 8, [128, 0]⟩
    = ⟨[0, -1935/128, -1735/128, -1935/128, 0], [0, 0, -1935/128, 0, 0], [0, 0, 0, 0, 0],
       0, 12, [128, 0, 0]⟩ := by
  norm_num [monoRow3, monoStep3, diffuse3, setAdd, flushByte, c1data, lumAt, chan,
    List.range_succ, List.replicate]

theorem c1_spec_out : toMonoImageSpecRot id ⟨c1data, 1, 3⟩ 2 = [128, 0, 0] := by
  show (List.foldl (fun st j => monoRow3 1 2 id c1data j st)
      ⟨List.replicate 5 0, List.replicate 5 0, List.replicate 5 0, 0, 0, []⟩
      (List.range 3)).out = [128, 0, 0]
  rw [show List.range 3 = [0, 1, 2] from rfl]
  simp only [List.foldl_cons, List.foldl_nil]
  rw [c1s_row0, c1s_row1, c1s_row2]

/-- C1: refuted on the code — the `shift`/`push` rotation duplicates the
`nxt2` reference instead of pushing a fresh zero buffer, so the buffer
slots do not stay distinct and the per-row `fill(0)` erases pending
diffusion error.  On a 1×3 Atkinson conversion the code model emits
`[128, 0, 128]` while the spec's rotation (three distinct buffers, fresh
zero next-next) emits `[128, 0, 0]`: the error pending for row 2 was
erased, flipping its decision. -/
theorem C1_rotation_aliasing :
    toMonoImage id ⟨c1data, 1, 3⟩ 2 = [128, 0, 128]
    ∧ toMonoImageSpecRot id ⟨c1data, 1, 3⟩ 2 = [128, 0, 0]
    ∧ toMonoImage id ⟨c1data, 1, 3⟩ 2 ≠ toMonoImageSpecRot id ⟨c1data, 1, 3⟩ 2 := by
  refine ⟨c1_code_out, c1_spec_out, ?_⟩
  rw [c1_code_out, c1_spec_out]
  decide

/-! ### Concrete flush evaluations (claims C4 and C8) -/

theorem c4_syn_out : toMonoImage id ⟨c4data, 8, 1⟩ 0 = [32] := by
  show (List.foldl (fun st j => monoRow 8 0 id c4data j st)
      ⟨⟨List.replicate 12 0, List.replicate 12 0, List.replicate 12 0⟩, (0, 1, 2), 0, 0, []⟩
      (List.range 1)).out = [32]
  rw [show List.range 1 = [0] from rfl]
  simp only [List.foldl_cons, List.foldl_nil]
  norm_num [monoRow, monoStep, monoV, monoT, monoN1, monoErr, monoStore1, flushByte,
    c4data, lumAt, chan, bayerAt, bayer, List.range_succ, List.replicate]
  decide

/-- Counterexample for C8: with the gamma curve of `g = -1 ≤ 0`
(`Math.pow(x, 1/g) = x⁻¹`), `toMonoImage` on a 1×1 gray pixel returns the
normal packed buffer `[0]` — no `InvalidGamma` failure occurs; the source
has no gamma check at all. -/
theorem C8_counterexample :
    toMonoImage (fun x => x⁻¹) ⟨[128, 128, 128, 255], 1, 1⟩ 1 = [0] := by
  show (List.foldl (fun st j => monoRow 1 1 (fun x => x⁻¹) [128, 128, 128, 255] j st)
      ⟨⟨List.replicate 5 0, List.replicate 5 0, List.replicate 5 0⟩, (0, 1, 2), 0, 0, []⟩
      (List.range 1)).out = [0]
  rw [show List.range 1 = [0] from rfl]
  simp only [List.foldl_cons, List.foldl_nil]
  norm_num [monoRow, monoStep, monoV, monoT, monoN1, monoErr, monoStore1, diffuse,
    BufStore.bump, BufStore.get, BufStore.put, setAdd, flushByte, lumAt, chan,
    List.range_succ, List.replicate]

/-! ### Claims C2, C4, C7, C8 -/

/-- C2: for every valid input (`w, h ≥ 1`, buffer of length `w*h*4`),
every dither algorithm and every gamma curve, `toMonoImage` returns
exactly `⌈w/8⌉ * h` bytes and `toGrayImage` exactly `⌈w/2⌉ * h`. -/
theorem C2_output_lengths (pw : ℚ → ℚ) (d : List ℚ) (w h s : Nat)
    (hw : 1 ≤ w) (hh : 1 ≤ h) (hd : d.length = w * h * 4) :
    (toMonoImage pw ⟨d, w, h⟩ s).length = (w + 7) / 8 * h
    ∧ (toGrayImage pw ⟨d, w, h⟩).length = (w + 1) / 2 * h := by
  constructor
  · obtain ⟨chunks, hout, hlen, hprops⟩ := monoImage_struct pw d w h s hw
    rw [hout, flatten_length_const chunks _ (fun c hc => (hprops c hc).1), hlen]
    ring
  · obtain ⟨chunks, hout, hlen, hprops⟩ := grayImage_struct pw d w h hw
    rw [hout, flatten_length_const chunks _ (fun c hc => (hprops c hc).1), hlen]
    ring

/-- Witness for C2: a 3×2 image with a zero buffer, Floyd–Steinberg,
gamma 1. -/
theorem C2_witness :
    (toMonoImage id ⟨List.replicate 24 0, 3, 2⟩ 1).length = (3 + 7) / 8 * 2
    ∧ (toGrayImage id ⟨List.replicate 24 0, 3, 2⟩).length = (3 + 1) / 2 * 2 :=
  C2_output_lengths id (List.replicate 24 0) 3 2 1 (by omega) (by omega) (by simp)

/-- C4: the flush quirk.  The byte 16 never appears in any monochrome
output (an accumulated byte of 16 is emitted as 32); a synthetic 8-pixel
row (white except a black pixel in column 3, Bayer mode) whose unmodified
packing is exactly 16 is emitted as `[32]`; and every other accumulated
value passes through `flushByte` unchanged. -/
theorem C4_flush_quirk :
    (∀ (pw : ℚ → ℚ) (img : ImageData) (s : Nat), (16 : Nat) ∉ toMonoImage pw img s)
    ∧ toMonoImage id ⟨c4data, 8, 1⟩ 0 = [32]
    ∧ (∀ n : Nat, n ≠ 16 → flushByte n = n) := by
  refine ⟨?_, c4_syn_out, fun n hn => if_neg hn⟩
  intro pw img s hmem
  obtain ⟨d, w, h⟩ := img
  by_cases hw : 1 ≤ w
  · obtain ⟨chunks, hout, _, hprops⟩ := monoImage_struct pw d w h s hw
    rw [hout] at hmem
    obtain ⟨c, hc, hx⟩ := List.mem_flatten.mp hmem
    exact ((hprops c hc).2.1 16 hx).1 rfl
  · have hw0 : w = 0 := by omega
    subst hw0
    rw [toMonoImage_w0] at hmem
    simp at hmem

/-- Witness for C4: the synthetic row's output does not contain 16, and a
non-16 byte (17) passes through the flush unchanged. -/
theorem C4_witness :
    (16 : Nat) ∉ toMonoImage id ⟨c4data, 8, 1⟩ 0 ∧ flushByte 17 = 17 :=
  ⟨C4_flush_quirk.1 id ⟨c4data, 8, 1⟩ 0, C4_flush_quirk.2.2 17 (by decide)⟩

/-- C7: when the width is not a multiple of 8 (mono) or of 2 (gray), each
output row's final byte has its padding bits — the low `8 - w%8` bits
(mono) or the low nibble (gray) — equal to 0, for every pixel buffer,
dither mode and gamma curve, including bytes rewritten by the 16→32
quirk. -/
theorem C7_row_padding (pw : ℚ → ℚ) (d : List ℚ) (w h s : Nat) (hw : 1 ≤ w) :
    (w % 8 ≠ 0 → ∀ j, j < h →
      (toMonoImage pw ⟨d, w, h⟩ s).getD ((w + 7) / 8 * (j + 1) - 1) 0 % 2 ^ (8 - w % 8) = 0)
    ∧ (w % 2 ≠ 0 → ∀ j, j < h →
      (toGrayImage pw ⟨d, w, h⟩).getD ((w + 1) / 2 * (j + 1) - 1) 0 % 16 = 0) := by
  constructor
  · intro h8 j hj
    obtain ⟨chunks, hout, hlen, hprops⟩ := monoImage_struct pw d w h s hw
    rw [hout]
    have hB : 1 ≤ (w + 7) / 8 := by omega
    have hidx : (w + 7) / 8 * (j + 1) - 1 = (w + 7) / 8 * j + ((w + 7) / 8 - 1) := by
      rw [Nat.mul_succ]
      omega
    rw [hidx, flatten_getD_const chunks _ (fun c hc => (hprops c hc).1) j _
      (by omega) (by omega)]
    exact (hprops _ (getD_mem chunks j [] (by omega))).2.2 h8
  · intro h2 j hj
    obtain ⟨chunks, hout, hlen, hprops⟩ := grayImage_struct pw d w h hw
    rw [hout]
    have hB : 1 ≤ (w + 1) / 2 := by omega
    have hidx : (w + 1) / 2 * (j + 1) - 1 = (w + 1) / 2 * j + ((w + 1) / 2 - 1) := by
      rw [Nat.mul_succ]
      omega
    rw [hidx, flatten_getD_const chunks _ (fun c hc => (hprops c hc).1) j _
      (by omega) (by omega)]
    exact (hprops _ (getD_mem chunks j [] (by omega))).2 h2

/-- Witness for C7: a 3×1 zero image, Bayer mode, gamma 1. -/
theorem C7_witness :
    ((3 : Nat) % 8 ≠ 0 → ∀ j, j < 1 →
      (toMonoImage id ⟨List.replicate 12 0, 3, 1⟩ 0).getD ((3 + 7) / 8 * (j + 1) - 1) 0
        % 2 ^ (8 - 3 % 8) = 0)
    ∧ ((3 : Nat) % 2 ≠ 0 → ∀ j, j < 1 →
      (toGrayImage id ⟨List.replicate 12 0, 3, 1⟩).getD ((3 + 1) / 2 * (j + 1) - 1) 0
        % 16 = 0) :=
  C7_row_padding id (List.replicate 12 0) 3 1 0 (by omega)

/-- C8 (amended): there is no gamma validation — the conversion is total
in the gamma curve and returns the full-size packed buffer for every
curve `pw`, including curves arising from `g ≤ 0`. -/
theorem C8_no_gamma_validation (pw : ℚ → ℚ) (d : List ℚ) (w h s : Nat) (hw : 1 ≤ w) :
    (toMonoImage pw ⟨d, w, h⟩ s).length = (w + 7) / 8 * h
    ∧ (toGrayImage pw ⟨d, w, h⟩).length = (w + 1) / 2 * h := by
  constructor
  · obtain ⟨chunks, hout, hlen, hprops⟩ := monoImage_struct pw d w h s hw
    rw [hout, flatten_length_const chunks _ (fun c hc => (hprops c hc).1), hlen]
    ring
  · obtain ⟨chunks, hout, hlen, hprops⟩ := grayImage_struct pw d w h hw
    rw [hout, flatten_length_const chunks _ (fun c hc => (hprops c hc).1), hlen]
    ring

/-- Witness for C8's amended claim: the gamma −1 curve `x ↦ x⁻¹` on an
empty 3×1 buffer still yields full-length outputs. -/
theorem C8_witness :
    (toMonoImage (fun x => x⁻¹) ⟨[], 3, 1⟩ 1).length = (3 + 7) / 8 * 1
    ∧ (toGrayImage (fun x => x⁻¹) ⟨[], 3, 1⟩).length = (3 + 1) / 2 * 1 :=
  C8_no_gamma_validation (fun x => x⁻¹) [] 3 1 1 (by omega)


end Epson

namespace Epson

theorem bayerAt_bounds (j i : Nat) : 2 ≤ bayerAt j i ∧ bayerAt j i ≤ 254 := by
  have h : ∀ a, a < 8 → ∀ b, b < 8 →
      2 ≤ (bayer.getD a []).getD b 0 ∧ (bayer.getD a []).getD b 0 ≤ 254 := by decide
  exact h (j % 8) (Nat.mod_lt _ (by omega)) (i % 8) (Nat.mod_lt _ (by omega))

theorem lumAt_white {w h m : Nat} (hm : m < w * h) : lumAt (whiteData w h) (4 * m) = 1 := by
  have h0 : chan (whiteData w h) (4 * m) = 255 := by
    simpa using chan_quad [255, 255, 255, 255] rfl (w * h) m 0 hm (by omega)
  have h1 : chan (whiteData w h) (4 * m + 1) = 255 :=
    chan_quad [255, 255, 255, 255] rfl (w * h) m 1 hm (by omega)
  have h2 : chan (whiteData w h) (4 * m + 2) = 255 :=
    chan_quad [255, 255, 255, 255] rfl (w * h) m 2 hm (by omega)
  have h3 : chan (whiteData w h) (4 * m + 3) = 255 :=
    chan_quad [255, 255, 255, 255] rfl (w * h) m 3 hm (by omega)
  unfold lumAt
  rw [h0, h1, h2, h3]
  norm_num

theorem lumAt_black {w h m : Nat} (hm : m < w * h) : lumAt (blackData w h) (4 * m) = 0 := by
  have h0 : chan (blackData w h) (4 * m) = 0 := by
    simpa using chan_quad [0, 0, 0, 255] rfl (w * h) m 0 hm (by omega)
  have h1 : chan (blackData w h) (4 * m + 1) = 0 :=
    chan_quad [0, 0, 0, 255] rfl (w * h) m 1 hm (by omega)
  have h2 : chan (blackData w h) (4 * m + 2) = 0 :=
    chan_quad [0, 0, 0, 255] rfl (w * h) m 2 hm (by omega)
  have h3 : chan (blackData w h) (4 * m + 3) = 255 :=
    chan_quad [0, 0, 0, 255] rfl (w * h) m 3 hm (by omega)
  unfold lumAt
  rw [h0, h1, h2, h3]
  norm_num

theorem get_zstore (w bid : Nat) : (⟨zbuf w, zbuf w, zbuf w⟩ : BufStore).get bid = zbuf w := by
  unfold BufStore.get
  split_ifs <;> rfl

theorem put_zstore (w bid : Nat) :
    (⟨zbuf w, zbuf w, zbuf w⟩ : BufStore).put bid (zbuf w) = ⟨zbuf w, zbuf w, zbuf w⟩ := by
  unfold BufStore.put
  split_ifs <;> rfl

theorem bump_zstore (w bid k : Nat) :
    (⟨zbuf w, zbuf w, zbuf w⟩ : BufStore).bump bid k 0 = ⟨zbuf w, zbuf w, zbuf w⟩ := by
  unfold BufStore.bump
  rw [get_zstore, show setAdd (zbuf w) k 0 = zbuf w from setAdd_replicate_zero _ _, put_zstore]

theorem diffuse_zstore (w s i : Nat) (ids : Nat × Nat × Nat) :
    diffuse s 0 i ids ⟨zbuf w, zbuf w, zbuf w⟩ = ⟨zbuf w, zbuf w, zbuf w⟩ := by
  unfold diffuse
  split_ifs <;> norm_num [bump_zstore]

theorem zbuf_getD (w k : Nat) : (zbuf w).getD k 0 = 0 := getD_replicate_zero _ _

theorem fill_zstore (w bid : Nat) :
    (⟨zbuf w, zbuf w, zbuf w⟩ : BufStore).put bid
      (List.replicate ((⟨zbuf w, zbuf w, zbuf w⟩ : BufStore).get bid).length 0)
    = ⟨zbuf w, zbuf w, zbuf w⟩ := by
  rw [get_zstore, show (zbuf w).length = w + 4 by simp [zbuf]]
  exact put_zstore w bid

end Epson

namespace Epson

theorem monoStep_white (w h s j i : Nat) (ids : Nat × Nat × Nat) (p : Nat) (out : List Nat)
    (hlum : lumAt (whiteData w h) p = 1) :
    monoStep w s id (whiteData w h) j ⟨⟨zbuf w, zbuf w, zbuf w⟩, ids, 0, p, out⟩ i
      = ⟨⟨zbuf w, zbuf w, zbuf w⟩, ids, 0, p + 4,
         if i % 8 = 7 ∨ i = w - 1 then out ++ [0] else out⟩ := by
  have hv : monoV s id (whiteData w h) ⟨⟨zbuf w, zbuf w, zbuf w⟩, ids, 0, p, out⟩ i = 255 := by
    unfold monoV
    dsimp only
    split_ifs
    · rw [hlum]; norm_num
    · rw [hlum, get_zstore, zbuf_getD]; norm_num
  have hnd : ¬(monoV s id (whiteData w h) ⟨⟨zbuf w, zbuf w, zbuf w⟩, ids, 0, p, out⟩ i
      < monoT s j i) := by
    rw [hv]
    unfold monoT
    split_ifs with hs
    · have hb := (bayerAt_bounds j i).2
      have hbq : (bayerAt j i : ℚ) ≤ 254 := by exact_mod_cast hb
      linarith
    · norm_num
  have hn1 : monoN1 s id (whiteData w h) j ⟨⟨zbuf w, zbuf w, zbuf w⟩, ids, 0, p, out⟩ i
      = 0 := by
    unfold monoN1
    rw [if_neg hnd]
  have herr : monoErr s id (whiteData w h) j ⟨⟨zbuf w, zbuf w, zbuf w⟩, ids, 0, p, out⟩ i
      = 0 := by
    unfold monoErr
    rw [if_neg hnd, hv]
    norm_num
  have hst : monoStore1 s id (whiteData w h) j ⟨⟨zbuf w, zbuf w, zbuf w⟩, ids, 0, p, out⟩ i
      = ⟨zbuf w, zbuf w, zbuf w⟩ := by
    unfold monoStore1
    split_ifs
    · rw [herr]
      exact diffuse_zstore w s i ids
    · rfl
  unfold monoStep
  split_ifs with hf
  · rw [hst, hn1]
    norm_num [flushByte]
  · rw [hst, hn1]

theorem monoStep_black (w h s j i n : Nat) (ids : Nat × Nat × Nat) (p : Nat) (out : List Nat)
    (hlum : lumAt (blackData w h) p = 0) :
    monoStep w s id (blackData w h) j ⟨⟨zbuf w, zbuf w, zbuf w⟩, ids, n, p, out⟩ i
      = if i % 8 = 7 ∨ i = w - 1 then
          ⟨⟨zbuf w, zbuf w, zbuf w⟩, ids, 0, p + 4,
           out ++ [flushByte (n ||| (128 >>> (i % 8))) % 256]⟩
        else
          ⟨⟨zbuf w, zbuf w, zbuf w⟩, ids, n ||| (128 >>> (i % 8)), p + 4, out⟩ := by
  have hv : monoV s id (blackData w h) ⟨⟨zbuf w, zbuf w, zbuf w⟩, ids, n, p, out⟩ i = 0 := by
    unfold monoV
    dsimp only
    split_ifs
    · rw [hlum]; norm_num
    · rw [hlum, get_zstore, zbuf_getD]; norm_num
  have hd : monoV s id (blackData w h) ⟨⟨zbuf w, zbuf w, zbuf w⟩, ids, n, p, out⟩ i
      < monoT s j i := by
    rw [hv]
    unfold monoT
    split_ifs with hs
    · have hb := (bayerAt_bounds j i).1
      have hbq : (2 : ℚ) ≤ (bayerAt j i : ℚ) := by exact_mod_cast hb
      linarith
    · norm_num
  have hn1 : monoN1 s id (blackData w h) j ⟨⟨zbuf w, zbuf w, zbuf w⟩, ids, n, p, out⟩ i
      = n ||| (128 >>> (i % 8)) := by
    unfold monoN1
    rw [if_pos hd]
  have herr : monoErr s id (blackData w h) j ⟨⟨zbuf w, zbuf w, zbuf w⟩, ids, n, p, out⟩ i
      = 0 := by
    unfold monoErr
    rw [if_pos hd, hv]
    norm_num
  have hst : monoStore1 s id (blackData w h) j ⟨⟨zbuf w, zbuf w, zbuf w⟩, ids, n, p, out⟩ i
      = ⟨zbuf w, zbuf w, zbuf w⟩ := by
    unfold monoStore1
    split_ifs
    · rw [herr]
      exact diffuse_zstore w s i ids
    · rfl
  unfold monoStep
  split_ifs with hf
  · rw [hst, hn1]
  · rw [hst, hn1]

theorem idxOf_255 : idxOf (id (1 : ℚ) * 255) = 255 := by
  have h : id (1 : ℚ) * 255 = (255 : ℚ) := by norm_num
  rw [h]
  decide

theorem idxOf_0 : idxOf (id (0 : ℚ) * 255) = 0 := by
  have h : id (0 : ℚ) * 255 = (0 : ℚ) := by norm_num
  rw [h]
  decide

theorem grayLevel_255 (m : Nat) : grayLevel 255 m = 15 := by
  unfold grayLevel
  rw [show thermal.getD 255 0 = 255 by decide]
  norm_num

theorem grayLevel_0 (m : Nat) : grayLevel 0 m = 0 := by
  unfold grayLevel
  rw [show thermal.getD 0 0 = 0 by decide]
  norm_num

theorem grayN1_white_even {d : List ℚ} {j : Nat} {st : GraySt} {i : Nat}
    (hn : st.n = 0) (hpar : i % 2 = 0) (hlum : lumAt d st.p = 1) :
    grayN1 id d j st i = 240 := by
  unfold grayN1
  rw [hn, hlum, hpar, idxOf_255, grayLevel_255, Nat.zero_or]
  decide

theorem grayN1_white_odd {d : List ℚ} {j : Nat} {st : GraySt} {i : Nat}
    (hn : st.n = 240) (hpar : i % 2 = 1) (hlum : lumAt d st.p = 1) :
    grayN1 id d j st i = 255 := by
  unfold grayN1
  rw [hn, hlum, hpar, idxOf_255, grayLevel_255]
  decide

theorem grayN1_black {d : List ℚ} {j : Nat} {st : GraySt} {i : Nat}
    (hn : st.n = 0) (hlum : lumAt d st.p = 0) :
    grayN1 id d j st i = 0 := by
  unfold grayN1
  rw [hn, hlum, idxOf_0, grayLevel_0, Nat.zero_shiftLeft, Nat.zero_or]

end Epson

namespace Epson

theorem black_n_step {i : Nat} :
    (256 - 2 ^ (8 - i % 8)) ||| (128 >>> (i % 8)) = 256 - 2 ^ (7 - i % 8) := by
  have h8 : i % 8 < 8 := Nat.mod_lt _ (by omega)
  revert h8
  generalize i % 8 = m
  intro h8
  interval_cases m <;> decide

theorem black_flush_byte {m : Nat} (hm : m < 8) :
    flushByte ((256 - 2 ^ (8 - m)) ||| (128 >>> m)) % 256 = 256 - 2 ^ (7 - m) := by
  interval_cases m <;> decide

theorem monoWhite_cols (w h s j : Nat) (hw : 1 ≤ w) (hj : j < h) (ids : Nat × Nat × Nat)
    (out : List Nat) : ∀ i, i ≤ w →
    ∃ c : Nat,
      List.foldl (monoStep w s id (whiteData w h) j)
          ⟨⟨zbuf w, zbuf w, zbuf w⟩, ids, 0, 4 * (w * j), out⟩ (List.range i)
        = ⟨⟨zbuf w, zbuf w, zbuf w⟩, ids, 0, 4 * (w * j) + 4 * i,
           out ++ List.replicate c 0⟩ := by
  intro i
  induction i with
  | zero =>
    intro _
    exact ⟨0, by simp⟩
  | succ i ih =>
    intro hi
    obtain ⟨c, hc⟩ := ih (by omega)
    rw [foldl_range_succ, hc]
    have hm : w * j + i < w * h := by
      have h1 : w * (j + 1) ≤ w * h := Nat.mul_le_mul_left w (by omega)
      rw [Nat.mul_succ] at h1
      omega
    have hlum : lumAt (whiteData w h) (4 * (w * j) + 4 * i) = 1 := by
      have hl := lumAt_white (w := w) (h := h) (m := w * j + i) hm
      rw [show 4 * (w * j + i) = 4 * (w * j) + 4 * i by ring] at hl
      exact hl
    rw [monoStep_white w h s j i ids _ _ hlum]
    by_cases hf : i % 8 = 7 ∨ i = w - 1
    · refine ⟨c + 1, ?_⟩
      rw [if_pos hf, show 4 * (w * j) + 4 * i + 4 = 4 * (w * j) + 4 * (i + 1) by ring,
        List.replicate_succ', ← List.append_assoc]
    · refine ⟨c, ?_⟩
      rw [if_neg hf, show 4 * (w * j) + 4 * i + 4 = 4 * (w * j) + 4 * (i + 1) by ring]

theorem monoBlack_cols (w h s j : Nat) (hw : 1 ≤ w) (hj : j < h) (ids : Nat × Nat × Nat)
    (out : List Nat) : ∀ i, i < w →
    List.foldl (monoStep w s id (blackData w h) j)
        ⟨⟨zbuf w, zbuf w, zbuf w⟩, ids, 0, 4 * (w * j), out⟩ (List.range i)
      = ⟨⟨zbuf w, zbuf w, zbuf w⟩, ids, 256 - 2 ^ (8 - i % 8), 4 * (w * j) + 4 * i,
         out ++ List.replicate (i / 8) 255⟩ := by
  intro i
  induction i with
  | zero =>
    intro _
    norm_num [MonoSt.mk.injEq]
  | succ i ih =>
    intro hi
    rw [foldl_range_succ, ih (by omega)]
    have hm : w * j + i < w * h := by
      have h1 : w * (j + 1) ≤ w * h := Nat.mul_le_mul_left w (by omega)
      rw [Nat.mul_succ] at h1
      omega
    have hlum : lumAt (blackData w h) (4 * (w * j) + 4 * i) = 0 := by
      have hl := lumAt_black (w := w) (h := h) (m := w * j + i) hm
      rw [show 4 * (w * j + i) = 4 * (w * j) + 4 * i by ring] at hl
      exact hl
    rw [monoStep_black w h s j i _ ids _ _ hlum]
    by_cases hf8 : i % 8 = 7
    · rw [if_pos (Or.inl hf8), black_flush_byte (Nat.mod_lt _ (by omega))]
      rw [show (256 : Nat) - 2 ^ (8 - (i + 1) % 8) = 0 by
            rw [show (i + 1) % 8 = 0 by omega]; decide,
          show (i + 1) / 8 = i / 8 + 1 by omega,
          show 4 * (w * j) + 4 * i + 4 = 4 * (w * j) + 4 * (i + 1) by ring,
          List.replicate_succ', ← List.append_assoc, hf8]
      norm_num
    · have hf : ¬(i % 8 = 7 ∨ i = w - 1) := by omega
      rw [if_neg hf, black_n_step,
        show 7 - i % 8 = 8 - (i + 1) % 8 by omega,
        show 4 * (w * j) + 4 * i + 4 = 4 * (w * j) + 4 * (i + 1) by ring,
        show (i + 1) / 8 = i / 8 by omega]

theorem monoRow_white_eq (w h s j : Nat) (hw : 1 ≤ w) (hj : j < h) (ids : Nat × Nat × Nat)
    (out : List Nat) :
    ∃ c : Nat,
      monoRow w s id (whiteData w h) j ⟨⟨zbuf w, zbuf w, zbuf w⟩, ids, 0, 4 * (w * j), out⟩
        = ⟨⟨zbuf w, zbuf w, zbuf w⟩, (ids.2.1, ids.2.2, ids.2.2), 0, 4 * (w * (j + 1)),
           out ++ List.replicate c 0⟩ := by
  obtain ⟨c, hc⟩ := monoWhite_cols w h s j hw hj ids out w le_rfl
  refine ⟨c, ?_⟩
  unfold monoRow
  dsimp only
  rw [fill_zstore, hc]
  rw [show 4 * (w * j) + 4 * w = 4 * (w * (j + 1)) by ring]

theorem monoRow_black_eq (w h s j : Nat) (hw : 1 ≤ w) (hj : j < h) (ids : Nat × Nat × Nat)
    (out : List Nat) :
    monoRow w s id (blackData w h) j ⟨⟨zbuf w, zbuf w, zbuf w⟩, ids, 0, 4 * (w * j), out⟩
      = ⟨⟨zbuf w, zbuf w, zbuf w⟩, (ids.2.1, ids.2.2, ids.2.2), 0, 4 * (w * (j + 1)),
         out ++ monoBlackRow w⟩ := by
  unfold monoRow
  dsimp only
  rw [fill_zstore]
  obtain ⟨w', rfl⟩ : ∃ w', w = w' + 1 := ⟨w - 1, by omega⟩
  rw [foldl_range_succ, monoBlack_cols (w' + 1) h s j hw hj ids out w' (by omega)]
  have hm : (w' + 1) * j + w' < (w' + 1) * h := by
    have h1 : (w' + 1) * (j + 1) ≤ (w' + 1) * h := Nat.mul_le_mul_left (w' + 1) (by omega)
    rw [Nat.mul_succ] at h1
    omega
  have hlum : lumAt (blackData (w' + 1) h) (4 * ((w' + 1) * j) + 4 * w') = 0 := by
    have hl := lumAt_black (w := w' + 1) (h := h) (m := (w' + 1) * j + w') hm
    rw [show 4 * ((w' + 1) * j + w') = 4 * ((w' + 1) * j) + 4 * w' by ring] at hl
    exact hl
  rw [monoStep_black (w' + 1) h s j w' _ ids _ _ hlum]
  rw [if_pos (Or.inr (show w' = w' + 1 - 1 by omega)),
    black_flush_byte (Nat.mod_lt _ (by omega))]
  rw [show 4 * ((w' + 1) * j) + 4 * w' + 4 = 4 * ((w' + 1) * (j + 1)) by ring]
  unfold monoBlackRow
  by_cases hw8 : (w' + 1) % 8 = 0
  · rw [if_pos hw8,
      show (w' + 1) / 8 = w' / 8 + 1 by omega,
      show (256 : Nat) - 2 ^ (7 - w' % 8) = 255 by rw [show w' % 8 = 7 by omega]; decide,
      List.replicate_succ', List.append_nil, ← List.append_assoc]
  · rw [if_neg hw8,
      show (w' + 1) / 8 = w' / 8 by omega,
      show 7 - w' % 8 = 8 - (w' + 1) % 8 by omega,
      ← List.append_assoc]

end Epson

namespace Epson

theorem grayStep_white_even (w h j i p : Nat) (out : List Nat) (hpar : i % 2 = 0)
    (hlum : lumAt (whiteData w h) p = 1) :
    grayStep w id (whiteData w h) j ⟨0, p, out⟩ i
      = if i = w - 1 then ⟨0, p + 4, out ++ [240]⟩ else ⟨240, p + 4, out⟩ := by
  have hg : grayN1 id (whiteData w h) j ⟨0, p, out⟩ i = 240 := grayN1_white_even rfl hpar hlum
  unfold grayStep
  by_cases hf : i = w - 1
  · rw [if_pos (Or.inr hf), if_pos hf, hg]
  · rw [if_neg (by omega), if_neg hf, hg]

theorem grayStep_white_odd (w h j i p : Nat) (out : List Nat) (hpar : i % 2 = 1)
    (hlum : lumAt (whiteData w h) p = 1) :
    grayStep w id (whiteData w h) j ⟨240, p, out⟩ i = ⟨0, p + 4, out ++ [255]⟩ := by
  have hg : grayN1 id (whiteData w h) j ⟨240, p, out⟩ i = 255 := grayN1_white_odd rfl hpar hlum
  unfold grayStep
  rw [if_pos (Or.inl hpar), hg]

theorem grayStep_black_eq (w h j i p : Nat) (out : List Nat)
    (hlum : lumAt (blackData w h) p = 0) :
    grayStep w id (blackData w h) j ⟨0, p, out⟩ i
      = if i % 2 = 1 ∨ i = w - 1 then ⟨0, p + 4, out ++ [0]⟩ else ⟨0, p + 4, out⟩ := by
  have hg : grayN1 id (blackData w h) j ⟨0, p, out⟩ i = 0 := grayN1_black rfl hlum
  unfold grayStep
  split_ifs with hf <;> rw [hg]

theorem grayWhite_cols (w h j : Nat) (hw : 1 ≤ w) (hj : j < h) (out : List Nat) :
    ∀ i, i < w →
    List.foldl (grayStep w id (whiteData w h) j) ⟨0, 4 * (w * j), out⟩ (List.range i)
      = ⟨if i % 2 = 0 then 0 else 240, 4 * (w * j) + 4 * i,
         out ++ List.replicate (i / 2) 255⟩ := by
  intro i
  induction i with
  | zero =>
    intro _
    norm_num [GraySt.mk.injEq]
  | succ i ih =>
    intro hi
    rw [foldl_range_succ, ih (by omega)]
    have hm : w * j + i < w * h := by
      have h1 : w * (j + 1) ≤ w * h := Nat.mul_le_mul_left w (by omega)
      rw [Nat.mul_succ] at h1
      omega
    have hlum : lumAt (whiteData w h) (4 * (w * j) + 4 * i) = 1 := by
      have hl := lumAt_white (w := w) (h := h) (m := w * j + i) hm
      rw [show 4 * (w * j + i) = 4 * (w * j) + 4 * i by ring] at hl
      exact hl
    by_cases hpar : i % 2 = 0
    · rw [if_pos hpar, grayStep_white_even w h j i _ _ hpar hlum,
        if_neg (by omega : ¬ i = w - 1), if_neg (by omega : ¬ (i + 1) % 2 = 0),
        show 4 * (w * j) + 4 * i + 4 = 4 * (w * j) + 4 * (i + 1) by ring,
        show (i + 1) / 2 = i / 2 by omega]
    · rw [if_neg hpar, grayStep_white_odd w h j i _ _ (by omega) hlum,
        if_pos (by omega : (i + 1) % 2 = 0),
        show 4 * (w * j) + 4 * i + 4 = 4 * (w * j) + 4 * (i + 1) by ring,
        show (i + 1) / 2 = i / 2 + 1 by omega,
        List.replicate_succ', ← List.append_assoc]

theorem grayRow_white_eq (w h j : Nat) (hw : 1 ≤ w) (hj : j < h) (out : List Nat) :
    List.foldl (grayStep w id (whiteData w h) j) ⟨0, 4 * (w * j), out⟩ (List.range w)
      = ⟨0, 4 * (w * (j + 1)), out ++ grayWhiteRow w⟩ := by
  obtain ⟨w', rfl⟩ : ∃ w', w = w' + 1 := ⟨w - 1, by omega⟩
  rw [foldl_range_succ, grayWhite_cols (w' + 1) h j hw hj out w' (by omega)]
  have hm : (w' + 1) * j + w' < (w' + 1) * h := by
    have h1 : (w' + 1) * (j + 1) ≤ (w' + 1) * h := Nat.mul_le_mul_left (w' + 1) (by omega)
    rw [Nat.mul_succ] at h1
    omega
  have hlum : lumAt (whiteData (w' + 1) h) (4 * ((w' + 1) * j) + 4 * w') = 1 := by
    have hl := lumAt_white (w := w' + 1) (h := h) (m := (w' + 1) * j + w') hm
    rw [show 4 * ((w' + 1) * j + w') = 4 * ((w' + 1) * j) + 4 * w' by ring] at hl
    exact hl
  unfold grayWhiteRow
  by_cases hpar : w' % 2 = 0
  · rw [if_pos hpar, grayStep_white_even (w' + 1) h j w' _ _ hpar hlum,
      if_pos (show w' = w' + 1 - 1 by omega),
      show 4 * ((w' + 1) * j) + 4 * w' + 4 = 4 * ((w' + 1) * (j + 1)) by ring,
      if_neg (by omega : ¬ (w' + 1) % 2 = 0),
      show (w' + 1) / 2 = w' / 2 by omega, ← List.append_assoc]
  · rw [if_neg hpar, grayStep_white_odd (w' + 1) h j w' _ _ (by omega) hlum,
      show 4 * ((w' + 1) * j) + 4 * w' + 4 = 4 * ((w' + 1) * (j + 1)) by ring,
      if_pos (by omega : (w' + 1) % 2 = 0),
      show (w' + 1) / 2 = w' / 2 + 1 by omega,
      List.replicate_succ', List.append_nil, ← List.append_assoc]

theorem grayBlack_cols (w h j : Nat) (hw : 1 ≤ w) (hj : j < h) (out : List Nat) :
    ∀ i, i ≤ w →
    ∃ c : Nat,
      List.foldl (grayStep w id (blackData w h) j) ⟨0, 4 * (w * j), out⟩ (List.range i)
        = ⟨0, 4 * (w * j) + 4 * i, out ++ List.replicate c 0⟩ := by
  intro i
  induction i with
  | zero =>
    intro _
    exact ⟨0, by simp⟩
  | succ i ih =>
    intro hi
    obtain ⟨c, hc⟩ := ih (by omega)
    rw [foldl_range_succ, hc]
    have hm : w * j + i < w * h := by
      have h1 : w * (j + 1) ≤ w * h := Nat.mul_le_mul_left w (by omega)
      rw [Nat.mul_succ] at h1
      omega
    have hlum : lumAt (blackData w h) (4 * (w * j) + 4 * i) = 0 := by
      have hl := lumAt_black (w := w) (h := h) (m := w * j + i) hm
      rw [show 4 * (w * j + i) = 4 * (w * j) + 4 * i by ring] at hl
      exact hl
    rw [grayStep_black_eq w h j i _ _ hlum]
    by_cases hf : i % 2 = 1 ∨ i = w - 1
    · refine ⟨c + 1, ?_⟩
      rw [if_pos hf, show 4 * (w * j) + 4 * i + 4 = 4 * (w * j) + 4 * (i + 1) by ring,
        List.replicate_succ', ← List.append_assoc]
    · refine ⟨c, ?_⟩
      rw [if_neg hf, show 4 * (w * j) + 4 * i + 4 = 4 * (w * j) + 4 * (i + 1) by ring]

theorem flatten_replicate_succ {α : Type} (k : Nat) (R : List α) :
    (List.replicate (k + 1) R).flatten = (List.replicate k R).flatten ++ R := by
  rw [List.replicate_succ', List.flatten_append, List.flatten_cons, List.flatten_nil,
    List.append_nil]

theorem monoImage_white_rows (w h s : Nat) (hw : 1 ≤ w) : ∀ k, k ≤ h →
    ∃ (ids : Nat × Nat × Nat) (c : Nat),
      List.foldl (fun st j => monoRow w s id (whiteData w h) j st)
          ⟨⟨zbuf w, zbuf w, zbuf w⟩, (0, 1, 2), 0, 0, []⟩ (List.range k)
        = ⟨⟨zbuf w, zbuf w, zbuf w⟩, ids, 0, 4 * (w * k), List.replicate c 0⟩ := by
  intro k
  induction k with
  | zero =>
    intro _
    exact ⟨(0, 1, 2), 0, by norm_num [MonoSt.mk.injEq]⟩
  | succ k ih =>
    intro hk
    obtain ⟨ids, c, hc⟩ := ih (by omega)
    obtain ⟨c2, hc2⟩ := monoRow_white_eq w h s k hw (by omega) ids (List.replicate c 0)
    refine ⟨(ids.2.1, ids.2.2, ids.2.2), c + c2, ?_⟩
    rw [foldl_range_succ, hc, hc2, List.replicate_add]

theorem monoImage_black_rows (w h s : Nat) (hw : 1 ≤ w) : ∀ k, k ≤ h →
    ∃ ids : Nat × Nat × Nat,
      List.foldl (fun st j => monoRow w s id (blackData w h) j st)
          ⟨⟨zbuf w, zbuf w, zbuf w⟩, (0, 1, 2), 0, 0, []⟩ (List.range k)
        = ⟨⟨zbuf w, zbuf w, zbuf w⟩, ids, 0, 4 * (w * k),
           (List.replicate k (monoBlackRow w)).flatten⟩ := by
  intro k
  induction k with
  | zero =>
    intro _
    exact ⟨(0, 1, 2), by norm_num [MonoSt.mk.injEq]⟩
  | succ k ih =>
    intro hk
    obtain ⟨ids, hc⟩ := ih (by omega)
    refine ⟨(ids.2.1, ids.2.2, ids.2.2), ?_⟩
    rw [foldl_range_succ, hc, monoRow_black_eq w h s k hw (by omega) ids _,
      ← flatten_replicate_succ]

theorem grayImage_white_rows (w h : Nat) (hw : 1 ≤ w) : ∀ k, k ≤ h →
    List.foldl (fun st j => List.foldl (grayStep w id (whiteData w h) j) st (List.range w))
        ⟨0, 0, []⟩ (List.range k)
      = ⟨0, 4 * (w * k), (List.replicate k (grayWhiteRow w)).flatten⟩ := by
  intro k
  induction k with
  | zero =>
    intro _
    norm_num [GraySt.mk.injEq]
  | succ k ih =>
    intro hk
    rw [foldl_range_succ, ih (by omega), grayRow_white_eq w h k hw (by omega) _,
      ← flatten_replicate_succ]

theorem grayImage_black_rows (w h : Nat) (hw : 1 ≤ w) : ∀ k, k ≤ h →
    ∃ c : Nat,
      List.foldl (fun st j => List.foldl (grayStep w id (blackData w h) j) st (List.range w))
          ⟨0, 0, []⟩ (List.range k)
        = ⟨0, 4 * (w * k), List.replicate c 0⟩ := by
  intro k
  induction k with
  | zero =>
    intro _
    exact ⟨0, by norm_num [GraySt.mk.injEq]⟩
  | succ k ih =>
    intro hk
    obtain ⟨c, hc⟩ := ih (by omega)
    obtain ⟨c2, hc2⟩ := grayBlack_cols w h k hw (by omega) (List.replicate c 0) w le_rfl
    refine ⟨c + c2, ?_⟩
    rw [foldl_range_succ, hc, hc2, List.replicate_add,
      show 4 * (w * k) + 4 * w = 4 * (w * (k + 1)) by ring]

theorem toMonoImage_full_length (pw : ℚ → ℚ) (d : List ℚ) (w h s : Nat) (hw : 1 ≤ w) :
    (toMonoImage pw ⟨d, w, h⟩ s).length = (w + 7) / 8 * h := by
  obtain ⟨chunks, hout, hlen, hprops⟩ := monoImage_struct pw d w h s hw
  rw [hout, flatten_length_const chunks _ (fun c hc => (hprops c hc).1), hlen]
  ring

theorem toGrayImage_full_length (pw : ℚ → ℚ) (d : List ℚ) (w h : Nat) (hw : 1 ≤ w) :
    (toGrayImage pw ⟨d, w, h⟩).length = (w + 1) / 2 * h := by
  obtain ⟨chunks, hout, hlen, hprops⟩ := grayImage_struct pw d w h hw
  rw [hout, flatten_length_const chunks _ (fun c hc => (hprops c hc).1), hlen]
  ring

/-- C6: with gamma 1, an all-white image yields an all-light output (every
monochrome byte 0 under every mode; every grayscale nibble 15 with
240-padding for odd widths), and an all-black image yields an all-dark
output (all non-padding bits 1: rows of 255-bytes with a top-bits partial
final byte; every grayscale byte 0). -/
theorem C6_constant_images (w h s : Nat) (hw : 1 ≤ w) (hh : 1 ≤ h) :
    toMonoImage id ⟨whiteData w h, w, h⟩ s = List.replicate ((w + 7) / 8 * h) 0
    ∧ toMonoImage id ⟨blackData w h, w, h⟩ s = (List.replicate h (monoBlackRow w)).flatten
    ∧ toGrayImage id ⟨whiteData w h, w, h⟩ = (List.replicate h (grayWhiteRow w)).flatten
    ∧ toGrayImage id ⟨blackData w h, w, h⟩ = List.replicate ((w + 1) / 2 * h) 0 := by
  refine ⟨?_, ?_, ?_, ?_⟩
  · obtain ⟨ids, c, hc⟩ := monoImage_white_rows w h s hw h le_rfl
    have hout : toMonoImage id ⟨whiteData w h, w, h⟩ s = List.replicate c 0 :=
      congrArg MonoSt.out hc
    have hlen := toMonoImage_full_length id (whiteData w h) w h s hw
    rw [hout] at hlen ⊢
    rw [show c = (w + 7) / 8 * h by simpa using hlen]
  · obtain ⟨ids, hc⟩ := monoImage_black_rows w h s hw h le_rfl
    exact congrArg MonoSt.out hc
  · exact congrArg GraySt.out (grayImage_white_rows w h hw h le_rfl)
  · obtain ⟨c, hc⟩ := grayImage_black_rows w h hw h le_rfl
    have hout : toGrayImage id ⟨blackData w h, w, h⟩ = List.replicate c 0 :=
      congrArg GraySt.out hc
    have hlen := toGrayImage_full_length id (blackData w h) w h hw
    rw [hout] at hlen ⊢
    rw [show c = (w + 1) / 2 * h by simpa using hlen]

/-- Witness for C6: a 3×2 image, Atkinson mode. -/
theorem C6_witness :
    toMonoImage id ⟨whiteData 3 2, 3, 2⟩ 2 = List.replicate ((3 + 7) / 8 * 2) 0
    ∧ toMonoImage id ⟨blackData 3 2, 3, 2⟩ 2 = (List.replicate 2 (monoBlackRow 3)).flatten
    ∧ toGrayImage id ⟨whiteData 3 2, 3, 2⟩ = (List.replicate 2 (grayWhiteRow 3)).flatten
    ∧ toGrayImage id ⟨blackData 3 2, 3, 2⟩ = List.replicate ((3 + 1) / 2 * 2) 0 :=
  C6_constant_images 3 2 2 (by omega) (by omega)

end Epson
